import Mathlib

/-!
Verification development for the hybrid retrieval and query-processing core of
a retrieval-augmented chatbot backend.

The definitions below are shallow embeddings of the Python source:
  * `QueryProcessor.*`  embeds `app/services/query_processor.py`
  * `HybridSearch.*`    embeds `app/services/hybrid_search.py`

Modelling conventions:
  * Python strings are `String` (a list of characters); character-level work is
    done on `List Char`.  `Char.toLower` models `str.lower()` (the queries and
    keyword tables in the source are ASCII).
  * Python floats are modelled as `ℚ` (the RRF arithmetic `1.0/(k+rank+1)` and
    its sums are exact at these magnitudes; no rounding behaviour of the source
    is relied upon by any claim).
  * Python dicts with a fixed set of observed keys are records of `Option`
    fields; `dict.get(key, default)` is `Option.getD`.
  * Python's insertion-ordered dicts (`defaultdict(float)` and the plain dict
    `result_map`) are association lists that keep the position of an existing
    key on update and append new keys at the end.
  * `sorted(..., key=..., reverse=True)` is a stable descending sort, modelled
    by `stableSortDesc` (stable insertion sort).
  * the external collaborators (Pinecone vector search, the BM25Okapi scorer of
    the `rank_bm25` package, the remote LLM) are parameters: an
    `Except`-valued vector retrieval function, an abstract deterministic
    scoring function `gs`, and an abstract HTTP response.
-/

namespace Util

/-- Python `\s` / `str.split()` whitespace test (ASCII range used by the source). -/
def isWs (c : Char) : Bool :=
  c = ' ' ∨ c = '\t' ∨ c = '\n' ∨ c = '\r' ∨ c = '\x0b' ∨ c = '\x0c'

/-- Python `str.lower()` on the character level. -/
def pyLower (cs : List Char) : List Char := cs.map Char.toLower

/-- Python `str.strip()`: drop leading and trailing whitespace. -/
def pyStrip (cs : List Char) : List Char :=
  ((cs.dropWhile isWs).reverse.dropWhile isWs).reverse

/-- Does `pat` occur as a prefix of `s` (exact characters)? -/
def listStarts (pat s : List Char) : Bool :=
  match pat, s with
  | [], _ => true
  | _ :: _, [] => false
  | p :: ps, c :: cs => p = c ∧ listStarts ps cs

/-- Python `pat in s`: substring containment. -/
def containsSub (pat s : List Char) : Bool :=
  match s with
  | [] => listStarts pat []
  | _ :: cs => listStarts pat s ∨ containsSub pat cs

/-- Python `s.count(c)` for a single character. -/
def countChar (cs : List Char) (c : Char) : Nat :=
  (cs.filter (· = c)).length

/-- Worker for `wsSplit`: `cur` is the (reversed) token being accumulated. -/
def wsSplitGo (cur : List Char) : List Char → List (List Char)
  | [] => if cur = [] then [] else [cur.reverse]
  | c :: rest =>
    if isWs c then
      if cur = [] then wsSplitGo [] rest else cur.reverse :: wsSplitGo [] rest
    else wsSplitGo (c :: cur) rest

/-- Python `str.split()` with no argument: split on whitespace runs,
dropping empty fields. -/
def wsSplit (cs : List Char) : List (List Char) :=
  wsSplitGo [] cs

end Util

namespace QueryProcessor


open Util

/-- `QueryProcessor.is_complex_query` (query_processor.py lines 32-54):
the eight boolean indicators, in source order, and the `sum(indicators) >= 2`
test.  Note the source counts every conjunction marker separately. -/
def is_complex_query (q : String) : Bool :=
  let cs := q.toList
  let low := pyLower cs
  let indicators : List Bool := [
    countChar cs '?' > 1,
    containsSub " and ".toList low,
    containsSub " also ".toList low,
    containsSub " as well as ".toList low,
    containsSub " plus ".toList low,
    (wsSplit cs).length > 15,
    containsSub "; ".toList cs,
    containsSub " both ".toList low ]
  2 ≤ (indicators.filter id).length

/-- The number of indicators of C3's four-indicator reading that hold;
this follows the spec's words ("more than one `?`; presence of a conjunction
marker — counted as one indicator; more than 15 words; presence of `; `"),
for comparison against the source's `is_complex_query`. -/
def specFourIndicatorCount (q : String) : Nat :=
  let cs := q.toList
  let low := pyLower cs
  let four : List Bool := [
    countChar cs '?' > 1,
    containsSub " and ".toList low ∨ containsSub " also ".toList low ∨
      containsSub " as well as ".toList low ∨ containsSub " plus ".toList low ∨
      containsSub " both ".toList low,
    (wsSplit cs).length > 15,
    containsSub "; ".toList cs ]
  (four.filter id).length

/-- After matching `pre`, can we skip zero or more non-newline characters
(`.*` with `re.DOTALL` off) and then match `post`?  Worker for `litStarLit`. -/
def noNlThenPost (post : List Char) : List Char → Bool
  | [] => Util.listStarts post []
  | c :: t => Util.listStarts post (c :: t) ∨ (c ≠ '\n' ∧ noNlThenPost post t)

/-- `re.search(pre + ".*" + post, s)`: some position matches `pre`, followed by
zero or more non-newline characters, followed by `post`.  This is the exact
search semantics of the two `.*` patterns of `classify_query_type`
(`what does .* feel like`, `stop .* from`). -/
def litStarLit (pre post : List Char) : List Char → Bool
  | [] => Util.listStarts pre [] ∧ noNlThenPost post []
  | c :: t =>
    (Util.listStarts pre (c :: t) ∧ noNlThenPost post (List.drop pre.length (c :: t)))
      ∨ litStarLit pre post t

/-- The apostrophe character (used by the `can't breathe` emergency keyword). -/
def apos : Char := Char.ofNat 39

/-- The emergency keyword list of `classify_query_type`
(query_processor.py lines 71-75), checked with Python's `in` (substring). -/
def emergency_keywords : List (List Char) :=
  [ "emergency".toList, "urgent".toList, "immediately".toList, "911".toList,
    "chest pain".toList,
    ['c','a','n',apos,'t',' ','b','r','e','a','t','h','e'],
    "severe bleeding".toList,
    "heart attack".toList, "stroke".toList, "choking".toList ]

/-- `any(kw in query_lower for kw in emergency_keywords)`. -/
def hasEmergency (ql : List Char) : Bool :=
  emergency_keywords.any (fun kw => Util.containsSub kw ql)

/-- `any(re.search(p, query_lower) for p in symptom_patterns)`.  The regex
patterns are translated to equivalent substring searches:
`r'symptom'`, `r'how do i know'`, `r'is it normal'` are literals;
`r'sign[s]? of'` matches iff `"signs of"` or `"sign of"` occurs;
`r'what does .* feel like'` is `litStarLit`. -/
def matchesSymptom (ql : List Char) : Bool :=
  Util.containsSub "symptom".toList ql ∨
  (Util.containsSub "signs of".toList ql ∨ Util.containsSub "sign of".toList ql) ∨
  Util.containsSub "how do i know".toList ql ∨
  litStarLit "what does ".toList " feel like".toList ql ∨
  Util.containsSub "is it normal".toList ql

/-- `any(re.search(p, query_lower) for p in treatment_patterns)`; every
pattern in the source list is a literal, so `re.search` is substring search. -/
def matchesTreatment (ql : List Char) : Bool :=
  Util.containsSub "treat".toList ql ∨ Util.containsSub "cure".toList ql ∨
  Util.containsSub "remedy".toList ql ∨ Util.containsSub "medicine".toList ql ∨
  Util.containsSub "medication".toList ql ∨ Util.containsSub "drug".toList ql ∨
  Util.containsSub "how to get rid".toList ql ∨
  Util.containsSub "what can i take".toList ql ∨
  Util.containsSub "what helps".toList ql

/-- `any(re.search(p, query_lower) for p in diagnosis_patterns)`.
`r'cause[sd]?'` matches iff the literal `"cause"` occurs (the optional
suffix class can always match the empty string); the rest are literals. -/
def matchesDiagnosis (ql : List Char) : Bool :=
  Util.containsSub "what is".toList ql ∨ Util.containsSub "what are".toList ql ∨
  Util.containsSub "define".toList ql ∨ Util.containsSub "explain".toList ql ∨
  Util.containsSub "cause".toList ql ∨ Util.containsSub "why do".toList ql

/-- `any(re.search(p, query_lower) for p in prevention_patterns)`;
`r'stop .* from'` is `litStarLit`, the rest are literals. -/
def matchesPrevention (ql : List Char) : Bool :=
  Util.containsSub "prevent".toList ql ∨ Util.containsSub "avoid".toList ql ∨
  Util.containsSub "reduce risk".toList ql ∨ Util.containsSub "protect".toList ql ∨
  litStarLit "stop ".toList " from".toList ql

/-- `query.lower()` as the character list the classifier scans. -/
def lowered (q : String) : List Char := Util.pyLower q.toList

/-- `QueryProcessor.classify_query_type` (query_processor.py lines 56-112):
lowercase the query, then test the five keyword/pattern groups in fixed
priority order, defaulting to `general`. -/
def classify_query_type (q : String) : String :=
  let ql := lowered q
  if hasEmergency ql then "emergency"
  else if matchesSymptom ql then "symptom"
  else if matchesTreatment ql then "treatment"
  else if matchesDiagnosis ql then "diagnosis"
  else if matchesPrevention ql then "prevention"
  else "general"

/-! ### Query decomposition (query_processor.py lines 176-304)

`re.split` is modelled by `pySplit`: scan left to right, at each position try
the separator matcher; on a match of `n > 0` characters, close the current
field and resume after the match.  Each separator regex is translated into a
deterministic matcher returning the number of characters the (unique possible)
match consumes at that position:

* the leading `\s+`/`\s*` parts are maximal-munch — complete here, because in
  every pattern the character required after the whitespace is itself
  non-whitespace, so a shorter whitespace match can never succeed;
* alternations are tried in source order (the alternatives are
  prefix-disjoint, so the order only fixes the consumed length).
-/

/-- Case-insensitive prefix test; `pat` is given in lowercase
(`re.IGNORECASE` over the ASCII keywords of the source). -/
def ciStarts (pat s : List Char) : Bool :=
  match pat, s with
  | [], _ => true
  | _ :: _, [] => false
  | p :: ps, c :: cs => p = c.toLower ∧ ciStarts ps cs

/-- First pattern of `pats` (in order) that case-insensitively prefixes `s`,
returning its length. -/
def firstCiPrefix (pats : List (List Char)) (s : List Char) : Option Nat :=
  pats.findSome? fun p => if ciStarts p s then some p.length else none

/-- Matcher for `lead + r'\s*(?:and|also|additionally)'` — the separators
`r'\?\s*(?:and|also|additionally)'` (`lead = '?'`) and
`r'\.\s*(?:and|also|additionally)'` (`lead = '.'`). -/
def sepPunctAnd (lead : Char) (s : List Char) : Option Nat :=
  match s with
  | [] => none
  | c :: t =>
    if c = lead then
      let w := (t.takeWhile Util.isWs).length
      match firstCiPrefix ["and".toList, "also".toList, "additionally".toList] (t.drop w) with
      | some n => some (1 + w + n)
      | none => none
    else none

/-- Matcher for the separator `r';\s*'`. -/
def sepSemi (s : List Char) : Option Nat :=
  match s with
  | [] => none
  | c :: t => if c = ';' then some (1 + (t.takeWhile Util.isWs).length) else none

/-- Matcher for the separator
`r'\s+and\s+(?=what|how|why|when|where|can|does|is)'`; the lookahead is
tested but not consumed. -/
def sepAnd (s : List Char) : Option Nat :=
  let w1 := (s.takeWhile Util.isWs).length
  if w1 = 0 then none
  else
    let r1 := s.drop w1
    if ciStarts "and".toList r1 then
      let r2 := r1.drop 3
      let w2 := (r2.takeWhile Util.isWs).length
      if w2 = 0 then none
      else
        let r3 := r2.drop w2
        if ["what", "how", "why", "when", "where", "can", "does", "is"].any
            (fun p => ciStarts p.toList r3)
        then some (w1 + 3 + w2) else none
    else none

/-- Worker for `pySplit`; `acc` is the reversed current field, `skip` the
number of already-matched separator characters still to be consumed. -/
def splitGo (m : List Char → Option Nat) (acc : List Char) :
    List Char → Nat → List (List Char)
  | [], _ => [acc.reverse]
  | _ :: t, skip + 1 => splitGo m acc t skip
  | c :: t, 0 =>
    match m (c :: t) with
    | some (n + 1) => acc.reverse :: splitGo m [] t n
    | some 0 => splitGo m (c :: acc) t 0
    | none => splitGo m (c :: acc) t 0

/-- `re.split(sep, s)` for a separator whose matches are computed by `m`
(and never empty): leftmost non-overlapping matches, fields kept including
empty ones. -/
def pySplit (m : List Char → Option Nat) (cs : List Char) : List (List Char) :=
  splitGo m [] cs 0

/-- The separator list of `_rule_based_decomposition` (lines 210-215),
in source order. -/
def sepMatchers : List (List Char → Option Nat) :=
  [sepPunctAnd '?', sepPunctAnd '.', sepSemi, sepAnd]

/-- The `for sep in separators` loop: the first separator whose split yields
more than one part (the source `break`s there, even if the parts are all
empty after cleanup). -/
def firstSplit (cs : List Char) : Option (List (List Char)) :=
  sepMatchers.findSome? fun m =>
    let parts := pySplit m cs
    if parts.length > 1 then some parts else none

/-- `q + '?' if not q.endswith('?') and not q.endswith('.') else q`. -/
def addQ (cs : List Char) : List Char :=
  if cs.getLast? = some '?' ∨ cs.getLast? = some '.' then cs else cs ++ ['?']

/-- Cleanup of the split parts (lines 220-226): strip each part, keep the
non-empty ones, then append `'?'` to parts lacking terminal punctuation. -/
def postProcess (parts : List (List Char)) : List (List Char) :=
  ((parts.map Util.pyStrip).filter (· ≠ [])).map addQ

/-! The `"X and Y"` template
`r'(?:what (?:are|is)|tell me about|explain)\s+(.+?)\s+and\s+(.+?)(?:\?|$)'`
is matched with `re.match` (anchored at the start).  The backtracking order of
the regex engine is reproduced exactly: alternatives in source order, `\s+`
greedy (longest first), `(.+?)` lazy (shortest first), `(?:\?|$)` trying `'?'`
before end-of-string; `.` never matches a newline. -/

/-- `[n, n-1, ..., 1]`: the candidate lengths of a greedy `\s+`/`\s*`. -/
def descRange (n : Nat) : List Nat := (List.range n).map (fun i => n - i)

/-- Lazy `(.+?)(?:\?|$)` tail of the template: shortest non-empty newline-free
`t2` followed by `'?'` or the end of the string. -/
def tmplT2 (t1 : List Char) (s5 : List Char) : Option (List Char × List Char) :=
  (List.range s5.length).findSome? fun i =>
    let t2 := s5.take (i + 1)
    if t2.all (· ≠ '\n') then
      let rest := s5.drop (i + 1)
      if rest.head? = some '?' ∨ rest = [] then some (t1, t2) else none
    else none

/-- `\s+and\s+` middle of the template, each `\s+` greedy. -/
def tmplMid (t1 : List Char) (s2 : List Char) : Option (List Char × List Char) :=
  (descRange ((s2.takeWhile Util.isWs).length)).findSome? fun w1 =>
    let s3 := s2.drop w1
    if ciStarts "and".toList s3 then
      let s4 := s3.drop 3
      (descRange ((s4.takeWhile Util.isWs).length)).findSome? fun w2 =>
        tmplT2 t1 (s4.drop w2)
    else none

/-- Lazy first capture `(.+?)` of the template. -/
def tmplT1 (s1 : List Char) : Option (List Char × List Char) :=
  (List.range s1.length).findSome? fun i =>
    let t1 := s1.take (i + 1)
    if t1.all (· ≠ '\n') then tmplMid t1 (s1.drop (i + 1)) else none

/-- `re.match` of the template (lines 231-235): anchored prefix alternation,
then `\s+`, then the two captures. -/
def matchTemplate (q : List Char) : Option (List Char × List Char) :=
  ["what are", "what is", "tell me about", "explain"].findSome? fun p =>
    if ciStarts p.toList q then
      let s0 := q.drop p.length
      (descRange ((s0.takeWhile Util.isWs).length)).findSome? fun w =>
        tmplT1 (s0.drop w)
    else none

/-- The separator stage of `_rule_based_decomposition` (lines 209-227): the
state of `sub_queries` after the `for sep in separators` loop. -/
def ruleSub (cs : List Char) : List (List Char) :=
  match firstSplit cs with
  | some parts => postProcess parts
  | none => []

/-- The `"X and Y"` template stage (lines 229-241), reached when the separator
stage left `sub_queries` empty. -/
def templateDecomp (cs : List Char) : List (List Char) :=
  match matchTemplate cs with
  | some (t1, t2) =>
    ["What is ".toList ++ Util.pyStrip t1 ++ ['?'],
     "What is ".toList ++ Util.pyStrip t2 ++ ['?']]
  | none => []

/-- `QueryProcessor._rule_based_decomposition` (lines 199-243): try the
separators; on the first split with more than one raw part, clean it up; if
that leaves nothing, try the `"X and Y"` template. -/
def rule_based_decomposition (q : String) : List String :=
  (if ruleSub q.toList = [] then templateDecomp q.toList else ruleSub q.toList).map
    String.mk

/-- `'\n'`-split keeping empty lines (`content.strip().split('\n')`). -/
def splitNlGo (acc : List Char) : List Char → List (List Char)
  | [] => [acc.reverse]
  | c :: t => if c = '\n' then acc.reverse :: splitNlGo [] t else splitNlGo (c :: acc) t

/-- `re.sub(r'^[\d\.\-\*\)]+\s*', '', line)`: strip a leading run of
numbering/bullet characters and the whitespace after it, if present. -/
def stripLineMarks (l : List Char) : List Char :=
  let isMark := fun c : Char => c.isDigit ∨ c = '.' ∨ c = '-' ∨ c = '*' ∨ c = ')'
  match l with
  | [] => []
  | c :: _ => if isMark c then (l.dropWhile isMark).dropWhile Util.isWs else l

/-- Parsing of a 200 response's message content (lines 288-299): split into
lines, strip, remove numbering prefixes, keep lines longer than 5 characters,
ensure a terminal `'?'`, cap at 3. -/
def llmParse (content : List Char) : List (List Char) :=
  let lines := splitNlGo [] (Util.pyStrip content)
  let step := fun (acc : List (List Char)) (line : List Char) =>
    let l1 := stripLineMarks (Util.pyStrip line)
    if l1 ≠ [] ∧ l1.length > 5 then
      acc ++ [if l1.getLast? = some '?' then l1 else l1 ++ ['?']]
    else acc
  (lines.foldl step []).take 3

/-- `QueryProcessor._llm_decomposition` (lines 245-304) over an abstract
transport outcome: `none` models a raised/timed-out request (caught by the
source's `except`, yielding `[]`); `some (status, content)` models a response,
parsed only when `status == 200`. -/
def llm_decomposition (resp : Option (Nat × String)) : List String :=
  match resp with
  | none => []
  | some (status, content) =>
    if status = 200 then (llmParse content.toList).map String.mk else []

/-- `QueryProcessor.decompose_query` (lines 176-197): rule tier first, then —
when an API key is configured — the remote tier, finally `[query]`. -/
def decompose_query (hasKey : Bool) (resp : Option (Nat × String)) (q : String) :
    List String :=
  let sub := rule_based_decomposition q
  if sub ≠ [] then sub
  else if hasKey then
    let sub2 := llm_decomposition resp
    if sub2 ≠ [] then sub2 else [q]
  else [q]

end QueryProcessor

namespace HybridSearch


/-- A Python result/chunk dict, closed over the keys the hybrid-search code
reads or writes (`id`, `content`, `metadata`, `score`, `source`,
`fused_score`); an absent key is `none`, and `dict.get(k, d)` is `getD`.
Metadata is opaque to the retrieval logic and kept as a key-value list. -/
structure RDict where
  id : Option String := none
  content : Option String := none
  metadata : Option (List (String × String)) := none
  score : Option ℚ := none
  source : Option String := none
  fused_score : Option ℚ := none
deriving DecidableEq, Repr

/-- `HybridSearchService._tokenize` (hybrid_search.py lines 32-42):
lowercase, replace every character that is neither a word character nor
whitespace by a space, split on whitespace.  (`\w` is modelled at ASCII width,
the alphabet of every corpus and query in the claims.) -/
def tokenize (text : String) : List String :=
  let low := Util.pyLower text.toList
  let subbed := low.map (fun c => if ¬ (c.isAlphanum ∨ c = '_') ∧ ¬ Util.isWs c then ' ' else c)
  (Util.wsSplit subbed).map String.mk

/-- Insert `x` into `l` before the first element of not-larger key: one step of
a stable descending insertion sort. -/
def insertDesc (key : α → ℚ) (x : α) : List α → List α
  | [] => [x]
  | y :: ys => if key y ≤ key x then x :: y :: ys else y :: insertDesc key x ys

/-- Python's `sorted(l, key=key, reverse=True)`: a stable sort by `key`
descending (Python's sort is stable; any stable sort computes the same list,
and insertion sort is the simplest). -/
def stableSortDesc (key : α → ℚ) : List α → List α
  | [] => []
  | x :: xs => insertDesc key x (stableSortDesc key xs)

/-- Lookup in an insertion-ordered dict modelled as an association list. -/
def lookupM (m : List (String × β)) (i : String) : Option β :=
  match m with
  | [] => none
  | (j, v) :: t => if j = i then some v else lookupM t i

/-- `fused_scores[doc_id] += c` on a `defaultdict(float)`: an existing key
keeps its position, a new key is appended (Python dicts preserve insertion
order). -/
def addScore (l : List (String × ℚ)) (i : String) (c : ℚ) : List (String × ℚ) :=
  match l with
  | [] => [(i, c)]
  | (j, s) :: t => if j = i then (j, s + c) :: t else (j, s) :: addScore t i c

/-- `result_map[doc_id] = result`: overwrite in place or append. -/
def setMap (m : List (String × RDict)) (i : String) (r : RDict) : List (String × RDict) :=
  match m with
  | [] => [(i, r)]
  | (j, v) :: t => if j = i then (j, r) :: t else (j, v) :: setMap t i r

/-- The RRF contribution `1.0 / (k + rank + 1)` of rank `n`. -/
def contribution (k n : ℕ) : ℚ := 1 / ((k : ℚ) + (n : ℚ) + 1)

/-- The fusion working state: the insertion-ordered `fused_scores` dict and
the `result_map` dict. -/
abbrev FusedSt := List (String × ℚ) × List (String × RDict)

/-- The `doc_id` of a vector result at rank `n`: `result.get('id', str(rank))`. -/
def vecId (n : ℕ) (r : RDict) : String := r.id.getD (toString n)

/-- The `doc_id` of the corpus chunk `d` at index `idx`:
`doc.get('id', f"bm25_{doc_idx}")`. -/
def docId (idx : ℕ) (d : RDict) : String := d.id.getD ("bm25_" ++ toString idx)

/-- The `'Add vector search results to fusion'` loop
(hybrid_search.py lines 116-119); `n` is the running `enumerate` rank. -/
def vecLoop (k : ℕ) : ℕ → List RDict → FusedSt → FusedSt
  | _, [], st => st
  | n, r :: t, st =>
    vecLoop k (n + 1) t (addScore st.1 (vecId n r) (contribution k n), setMap st.2 (vecId n r) r)

/-- The result dict built from a BM25 hit
(hybrid_search.py lines 131-137 and, identically, lines 203-209). -/
def bm25Entry (d : RDict) (idx : ℕ) (s : ℚ) : RDict :=
  { id := some (docId idx d), content := some (d.content.getD ""),
    metadata := some (d.metadata.getD []), score := some s,
    source := some "bm25", fused_score := none }

/-- The `'Add BM25 results to fusion'` loop (hybrid_search.py lines 122-137):
out-of-range chunk indices are skipped (but still counted by `enumerate`),
and the result map only gains ids not already present. -/
def lexLoop (docs : List RDict) (k : ℕ) : ℕ → List (ℕ × ℚ) → FusedSt → FusedSt
  | _, [], st => st
  | n, (idx, s) :: t, st =>
    match docs.get? idx with
    | none => lexLoop docs k (n + 1) t st
    | some d =>
      let i := docId idx d
      lexLoop docs k (n + 1) t
        (addScore st.1 i (contribution k n),
         if (lookupM st.2 i).isSome then st.2 else st.2 ++ [(i, bm25Entry d idx s)])

/-- The fusion state after both accumulation loops. -/
def rrfState (docs V : List RDict) (L : List (ℕ × ℚ)) (k : ℕ) : FusedSt :=
  lexLoop docs k 0 L (vecLoop k 0 V ([], []))

/-- `_reciprocal_rank_fusion` keyed form: the sorted `(doc_id, fused_score)`
pairs together with the final result dict each produces (lines 139-152). -/
def rrfPairs (docs V : List RDict) (L : List (ℕ × ℚ)) (k : ℕ) : List (String × RDict) :=
  let st := rrfState docs V L k
  (stableSortDesc Prod.snd st.1).filterMap fun p =>
    (lookupM st.2 p.1).map fun r => (p.1, { r with fused_score := some p.2 })

/-- `HybridSearchService._reciprocal_rank_fusion` (hybrid_search.py lines
93-154): accumulate reciprocal-rank contributions by id over both lists, sort
by fused score descending (stable), emit each id's mapped result dict with its
`fused_score`. -/
def reciprocal_rank_fusion (docs V : List RDict) (L : List (ℕ × ℚ)) (k : ℕ) : List RDict :=
  (rrfPairs docs V L k).map Prod.snd

/-- The in-memory service state: `self.bm25_index` (a fitted `BM25Okapi`,
determined by the tokenized corpus it was built from), `self.documents` and
`self.document_texts`. -/
structure HState where
  bm25_index : Option (List (List String))
  documents : List RDict
  document_texts : List String
deriving DecidableEq

/-- The fresh service state (`__init__`, lines 26-30). -/
def initState : HState := { bm25_index := none, documents := [], document_texts := [] }

/-- `HybridSearchService.build_index` (lines 44-64): an empty corpus only logs
a warning and returns, leaving the prior state in place; otherwise the corpus
and the BM25 structure are replaced wholesale. -/
def build_index (docs : List RDict) (s : HState) : HState :=
  if docs = [] then s
  else
    let texts := docs.map (fun d => d.content.getD "")
    { bm25_index := some (texts.map tokenize), documents := docs, document_texts := texts }

/-- `HybridSearchService.add_documents` (lines 66-69): extend and rebuild. -/
def add_documents (docs : List RDict) (s : HState) : HState :=
  let s' := { s with documents := s.documents ++ docs }
  build_index s'.documents s'

/-- The scoring function of the external `rank_bm25.BM25Okapi` collaborator:
given the tokenized corpus the index was built from and the tokenized query,
the list of per-document scores (`get_scores`).  It is deterministic; its
numeric content is opaque to every claim. -/
abbrev GetScores := List (List String) → List String → List ℚ

/-- `HybridSearchService._bm25_search` (lines 71-91): guard on a missing index
or corpus, tokenize the query (empty token list short-circuits to `[]`), score
every chunk, sort `(index, score)` pairs by score descending (Python's stable
sort), truncate. -/
def bm25_search (gs : GetScores) (s : HState) (query : String) (top_k : ℕ) :
    List (ℕ × ℚ) :=
  match s.bm25_index with
  | none => []
  | some corp =>
    if s.documents = [] then []
    else
      let qt := tokenize query
      if qt = [] then []
      else
        let scores := gs corp qt
        (stableSortDesc Prod.snd scores.enum).take top_k

/-- The RRF constant `self._rrf_k` (line 30). -/
def rrfK : ℕ := 60

/-- The vector retrieval collaborator (`search_similar_documents` of
app/db/pinecone.py): its outcome for a query and fan-out is either a raised
exception (`Except.error`, e.g. transport failure) or a ranked result list.
The optional metadata filter is orthogonal to every claim and elided. -/
abbrev VecSearch := String → ℕ → Except String (List RDict)

/-- The `vector_results` the orchestrator continues with: the collaborator's
list, or `[]` when the call raised (the `except` clause of lines 184-186). -/
def vecList : Except String (List RDict) → List RDict
  | .ok v => v
  | .error _ => []

/-- The lexical-only branch of `search` (lines 196-210): format the first
`top_k` BM25 hits as result dicts, skipping out-of-range indices. -/
def lexOnlyResults (docs : List RDict) (L : List (ℕ × ℚ)) (top_k : ℕ) : List RDict :=
  (L.take top_k).filterMap fun p => (docs.get? p.1).map fun d => bm25Entry d p.1 p.2

/-- `HybridSearchService.search` (lines 156-219): fetch vector results with
fan-out `min(top_k*3, 50)` (an exception degrades to `[]`), fetch BM25 results
over the same fan-out, short-circuit when either source is empty, otherwise
fuse with the RRF constant and truncate. -/
def search (gs : GetScores) (vec : VecSearch) (s : HState) (query : String)
    (top_k : ℕ) : List RDict :=
  let vector_k := min (top_k * 3) 50
  let vector_results := vecList (vec query vector_k)
  let bm25_results := bm25_search gs s query vector_k
  if bm25_results = [] then vector_results.take top_k
  else if vector_results = [] then lexOnlyResults s.documents bm25_results top_k
  else (reciprocal_rank_fusion s.documents vector_results bm25_results rrfK).take top_k

/-! ### The accumulation loops as folds over tagged contribution sequences -/

/-- Fold a sequence of `(id, contribution)` pairs into a `fused_scores` dict. -/
def scoresFold (l : List (String × ℚ)) (cs : List (String × ℚ)) : List (String × ℚ) :=
  cs.foldl (fun acc p => addScore acc p.1 p.2) l

/-- Tag a rank-indexed sequence of optional ids with their RRF contributions,
skipping the `none` positions (out-of-range chunk indices) while still
counting them in the rank. -/
def tagContribs (k : ℕ) : ℕ → List (Option String) → List (String × ℚ)
  | _, [] => []
  | n, none :: t => tagContribs k (n + 1) t
  | n, some i :: t => (i, contribution k n) :: tagContribs k (n + 1) t

/-- The ids the vector loop derives, rank by rank. -/
def vecIds : ℕ → List RDict → List String
  | _, [] => []
  | n, r :: t => vecId n r :: vecIds (n + 1) t

/-- The id (if in corpus range) each lexical result carries. -/
def lexIds (docs : List RDict) (L : List (ℕ × ℚ)) : List (Option String) :=
  L.map fun p => (docs.get? p.1).map (docId p.1)

/-- The `fused_scores` dict of one fusion operation, as a fold over the tagged
contributions of both lists — the insertion order of its keys is the order in
which each id first contributed, every vector entry before every lexical
entry. -/
def fusedItems (docs V : List RDict) (L : List (ℕ × ℚ)) (k : ℕ) : List (String × ℚ) :=
  scoresFold [] (tagContribs k 0 ((vecIds 0 V).map some) ++ tagContribs k 0 (lexIds docs L))

/-- The total contribution a given id receives from a tagged sequence. -/
def totalContrib (i : String) (cs : List (String × ℚ)) : ℚ :=
  ((cs.filter (fun p => p.1 = i)).map Prod.snd).sum

/-! ### The result map covers every fused key -/

/-- Invariant of the fusion loops: every accumulated id is resolvable in the
result map. -/
def mapDom (st : FusedSt) : Prop :=
  ∀ i, i ∈ st.1.map Prod.fst → (lookupM st.2 i).isSome

/-! ### The final assembly loop of the fusion -/

/-- The body of the final loop of `_reciprocal_rank_fusion` (lines 147-152):
resolve a sorted `(doc_id, fused_score)` pair in the result map. -/
def entryFn (m : List (String × RDict)) (p : String × ℚ) : Option (String × RDict) :=
  (lookupM m p.1).map fun r => (p.1, { r with fused_score := some p.2 })

/-! ### The short-circuit paths versus one-sided fusion (claim C7) -/

/-- Drop the fusion annotation: the projection under which the short-circuit
output and the one-sided fused output are compared. -/
def stripFused (r : RDict) : RDict := { r with fused_score := none }

/-- The `(doc_id, result)` pairs the vector loop stores, in order. -/
def vecPairs : ℕ → List RDict → List (String × RDict)
  | _, [] => []
  | n, r :: t => (vecId n r, r) :: vecPairs (n + 1) t

/-- The fused pairs a pure vector-list fusion produces, in order. -/
def vecOut (k : ℕ) : ℕ → List RDict → List (String × RDict)
  | _, [] => []
  | n, r :: t =>
    (vecId n r, { r with fused_score := some (contribution k n) }) :: vecOut k (n + 1) t

/-- The `(doc_id, result)` pairs the lexical loop appends, in order
(out-of-range indices skipped). -/
def lexPairs (docs : List RDict) : List (ℕ × ℚ) → List (String × RDict)
  | [] => []
  | (idx, s) :: t =>
    match docs.get? idx with
    | some d => (docId idx d, bm25Entry d idx s) :: lexPairs docs t
    | none => lexPairs docs t

/-- The fused pairs a pure lexical-list fusion produces, in order. -/
def lexOut (docs : List RDict) (k : ℕ) : ℕ → List (ℕ × ℚ) → List (String × RDict)
  | _, [] => []
  | n, (idx, s) :: t =>
    match docs.get? idx with
    | some d =>
      (docId idx d, { bm25Entry d idx s with fused_score := some (contribution k n) })
        :: lexOut docs k (n + 1) t
    | none => lexOut docs k (n + 1) t

/-- First-occurrence deduplication: the order in which distinct ids first
appear in a sequence — the insertion order of a Python dict fed that
sequence of keys. -/
def firstDedup : List String → List String
  | [] => []
  | a :: t => a :: firstDedup (t.filter (fun x => ¬ x = a))
  termination_by l => l.length
  decreasing_by
    have := List.length_filter_le (fun x => decide ¬ x = a) t
    simp only [List.length_cons]
    omega

end HybridSearch

section ConcreteInstances

open HybridSearch


open HybridSearch

/-- Concrete corpus chunks for evaluation. -/
def docA : RDict := { id := some "a", content := some "diabetes symptoms" }

def docB : RDict := { id := some "b", content := some "diabetes treatment" }

def vecA : RDict := { id := some "a", content := some "diabetes symptoms",
                      score := some (9/10), source := some "vector" }

def vecC : RDict := { id := some "c", content := some "other", score := some (1/2) }

end ConcreteInstances


/-! ### Concrete instances for counterexamples and witnesses -/

/-- A duplicate-id vector result (same id as `vecA`, different payload). -/
def vecA2 : HybridSearch.RDict :=
  { id := some "a", content := some "duplicate payload", score := some (1/3),
    source := some "vector" }

/-- A trivial scoring collaborator: no scores at all. -/
def gs0 : HybridSearch.GetScores := fun _ _ => []

/-- A concrete deterministic scoring collaborator: score 1 for a chunk whose
token list equals the query's, else 0. -/
def gsW : HybridSearch.GetScores :=
  fun corp qt => corp.map (fun toks => if toks = qt then (1 : ℚ) else 0)


namespace QueryProcessor

/-! ### Claim-level theorems for the query processor -/

theorem getLast?_append_q {l : List Char} : (l ++ ['?']).getLast? = some '?' := by
  rw [List.getLast?_concat]

theorem addQ_spec {cs : List Char} (h : cs ≠ []) :
    addQ cs ≠ [] ∧ ((addQ cs).getLast? = some '?' ∨ (addQ cs).getLast? = some '.') := by
  rw [addQ]
  by_cases hq : cs.getLast? = some '?' ∨ cs.getLast? = some '.'
  · rw [if_pos hq]
    exact ⟨h, hq⟩
  · rw [if_neg hq]
    exact ⟨by simp, Or.inl getLast?_append_q⟩

theorem postProcess_spec {parts : List (List Char)} :
    ∀ cs ∈ postProcess parts,
      cs ≠ [] ∧ (cs.getLast? = some '?' ∨ cs.getLast? = some '.') := by
  intro cs hcs
  rw [postProcess] at hcs
  rcases List.mem_map.mp hcs with ⟨cs', hcs', rfl⟩
  exact addQ_spec (by simpa using (List.mem_filter.mp hcs').2)

theorem templateDecomp_spec {cs : List Char} :
    ∀ cs' ∈ templateDecomp cs,
      cs' ≠ [] ∧ (cs'.getLast? = some '?' ∨ cs'.getLast? = some '.') := by
  intro cs' hcs'
  rw [templateDecomp] at hcs'
  cases hmt : matchTemplate cs with
  | none => rw [hmt] at hcs'; simp at hcs'
  | some p =>
    rcases p with ⟨t1, t2⟩
    rw [hmt] at hcs'
    simp only [List.mem_cons, List.not_mem_nil, or_false] at hcs'
    rcases hcs' with rfl | rfl
    · exact ⟨by simp, Or.inl getLast?_append_q⟩
    · exact ⟨by simp, Or.inl getLast?_append_q⟩

theorem rule_based_spec {q : String} :
    ∀ p ∈ rule_based_decomposition q,
      p.toList ≠ [] ∧ (p.toList.getLast? = some '?' ∨ p.toList.getLast? = some '.') := by
  intro p hp
  rw [rule_based_decomposition] at hp
  rcases List.mem_map.mp hp with ⟨cs', hcs', rfl⟩
  by_cases hs : ruleSub q.toList = []
  · rw [if_pos hs] at hcs'
    exact templateDecomp_spec cs' hcs'
  · rw [if_neg hs] at hcs'
    rw [ruleSub] at hcs'
    cases hfs : firstSplit q.toList with
    | none => rw [hfs] at hcs'; simp at hcs'
    | some parts =>
      rw [hfs] at hcs'
      exact postProcess_spec cs' hcs'

/-- Claim C5 (decomposition contract, amended): `decompose_query` never
returns an empty list; every part the rule tier produces is non-empty and
carries terminal punctuation (a `'?'` was appended to parts lacking `'?'` or
`'.'`); and when the rule tier yields nothing and the remote tier is
unconfigured (`hasKey = false`) or its call raised and was caught
(`resp = none`), the result is exactly `[query]`.  (The rule tier itself
returns parts whenever a separator split yields more than one raw part —
empty parts included in that count — or the `"what is X and Y"` template
matches; it is not limited to splits with two or more non-empty parts.) -/
theorem decompose_query_contract (q : String) (hasKey : Bool)
    (resp : Option (Nat × String)) :
    decompose_query hasKey resp q ≠ [] ∧
    (rule_based_decomposition q = [] → hasKey = false ∨ resp = none →
      decompose_query hasKey resp q = [q]) ∧
    (∀ p ∈ rule_based_decomposition q,
      p.toList ≠ [] ∧ (p.toList.getLast? = some '?' ∨ p.toList.getLast? = some '.')) := by
  refine ⟨?_, ?_, rule_based_spec⟩
  · rw [decompose_query]
    by_cases hr : rule_based_decomposition q = []
    · rw [if_neg (by simpa using hr)]
      cases hasKey with
      | false => simp
      | true =>
        by_cases hl : llm_decomposition resp = []
        · rw [if_pos rfl]
          simp [hl]
        · rw [if_pos rfl]
          simp [hl]
    · rw [if_pos hr]
      exact hr
  · intro hr hside
    rw [decompose_query, if_neg (by simpa using hr)]
    rcases hside with rfl | rfl
    · rfl
    · cases hasKey with
      | false => rfl
      | true => rw [if_pos rfl]; rfl

/-- Claim C3 (complexity threshold, amended): `is_complex_query` is true iff
at least 2 of the source's EIGHT indicators hold — each of the five
conjunction markers is its own indicator, not one jointly — and the two
spec examples evaluate as stated (the second via its two separate markers
`" and "` and `" also "`). -/
theorem is_complex_threshold (q : String) :
    (is_complex_query q = true ↔
      2 ≤ (List.filter id [
        Util.countChar q.toList '?' > 1,
        Util.containsSub " and ".toList (Util.pyLower q.toList),
        Util.containsSub " also ".toList (Util.pyLower q.toList),
        Util.containsSub " as well as ".toList (Util.pyLower q.toList),
        Util.containsSub " plus ".toList (Util.pyLower q.toList),
        (Util.wsSplit q.toList).length > 15,
        Util.containsSub "; ".toList q.toList,
        Util.containsSub " both ".toList (Util.pyLower q.toList)]).length) ∧
    is_complex_query "What is asthma?" = false ∧
    is_complex_query
      "What is asthma and how do I treat it and also what about prevention?" = true := by
  refine ⟨?_, by decide, ?_⟩
  · rw [is_complex_query]
    exact decide_eq_true_iff
  · set_option maxRecDepth 8000 in decide

/-- Claim C4 (classification priority): `classify_query_type` returns exactly
one of the six types, evaluated in fixed priority order over the lowercased
query; an emergency keyword short-circuits every later pattern group, and the
spec's example classifies as `emergency` despite containing the treatment
keyword `medicine`. -/
theorem classify_priority (q : String) :
    (classify_query_type q = "emergency" ∨ classify_query_type q = "symptom" ∨
     classify_query_type q = "treatment" ∨ classify_query_type q = "diagnosis" ∨
     classify_query_type q = "prevention" ∨ classify_query_type q = "general") ∧
    (hasEmergency (lowered q) = true →
      classify_query_type q = "emergency") ∧
    (hasEmergency (lowered q) = false →
      matchesSymptom (lowered q) = true →
      classify_query_type q = "symptom") ∧
    (hasEmergency (lowered q) = false →
      matchesSymptom (lowered q) = false →
      matchesTreatment (lowered q) = true →
      classify_query_type q = "treatment") ∧
    (hasEmergency (lowered q) = false →
      matchesSymptom (lowered q) = false →
      matchesTreatment (lowered q) = false →
      matchesDiagnosis (lowered q) = true →
      classify_query_type q = "diagnosis") ∧
    (hasEmergency (lowered q) = false →
      matchesSymptom (lowered q) = false →
      matchesTreatment (lowered q) = false →
      matchesDiagnosis (lowered q) = false →
      matchesPrevention (lowered q) = true →
      classify_query_type q = "prevention") ∧
    (hasEmergency (lowered q) = false →
      matchesSymptom (lowered q) = false →
      matchesTreatment (lowered q) = false →
      matchesDiagnosis (lowered q) = false →
      matchesPrevention (lowered q) = false →
      classify_query_type q = "general") ∧
    classify_query_type "I have chest pain, what medicine helps?" = "emergency" := by
  refine ⟨?_, ?_, ?_, ?_, ?_, ?_, ?_, ?_⟩
  · rw [classify_query_type]
    split
    · exact Or.inl rfl
    split
    · exact Or.inr (Or.inl rfl)
    split
    · exact Or.inr (Or.inr (Or.inl rfl))
    split
    · exact Or.inr (Or.inr (Or.inr (Or.inl rfl)))
    split
    · exact Or.inr (Or.inr (Or.inr (Or.inr (Or.inl rfl))))
    · exact Or.inr (Or.inr (Or.inr (Or.inr (Or.inr rfl))))
  · intro h; simp [classify_query_type, h]
  · intro h1 h2; simp [classify_query_type, h1, h2]
  · intro h1 h2 h3; simp [classify_query_type, h1, h2, h3]
  · intro h1 h2 h3 h4; simp [classify_query_type, h1, h2, h3, h4]
  · intro h1 h2 h3 h4 h5; simp [classify_query_type, h1, h2, h3, h4, h5]
  · intro h1 h2 h3 h4 h5; simp [classify_query_type, h1, h2, h3, h4, h5]
  · set_option maxRecDepth 8000 in decide

end QueryProcessor

namespace HybridSearch

/-! ### Generic lemmas about the stable sort -/

theorem insertDesc_perm (key : α → ℚ) (x : α) (l : List α) :
    (insertDesc key x l).Perm (x :: l) := by
  induction l with
  | nil => exact List.Perm.refl _
  | cons y ys ih =>
    by_cases h : key y ≤ key x
    · simp [insertDesc, h]
    · simp only [insertDesc, if_neg h]
      exact (ih.cons y).trans (List.Perm.swap x y ys)

theorem stableSortDesc_perm (key : α → ℚ) (l : List α) :
    (stableSortDesc key l).Perm l := by
  induction l with
  | nil => exact List.Perm.refl _
  | cons x xs ih => exact (insertDesc_perm key x _).trans (ih.cons x)

theorem mem_insertDesc {key : α → ℚ} {x a : α} {l : List α} :
    a ∈ insertDesc key x l ↔ a = x ∨ a ∈ l := by
  rw [(insertDesc_perm key x l).mem_iff, List.mem_cons]

theorem insertDesc_pairwise {key : α → ℚ} {x : α} {l : List α}
    (h : l.Pairwise (fun a b => key b ≤ key a)) :
    (insertDesc key x l).Pairwise (fun a b => key b ≤ key a) := by
  induction l with
  | nil => simp [insertDesc]
  | cons y ys ih =>
    rcases List.pairwise_cons.mp h with ⟨hy, hys⟩
    by_cases hle : key y ≤ key x
    · simp only [insertDesc, if_pos hle]
      refine List.pairwise_cons.mpr ⟨?_, h⟩
      intro b hb
      rcases List.mem_cons.mp hb with rfl | hb
      · exact hle
      · exact (hy b hb).trans hle
    · simp only [insertDesc, if_neg hle]
      refine List.pairwise_cons.mpr ⟨?_, ih hys⟩
      intro b hb
      rcases mem_insertDesc.mp hb with rfl | hb
      · exact le_of_not_le hle
      · exact hy b hb

theorem stableSortDesc_pairwise (key : α → ℚ) (l : List α) :
    (stableSortDesc key l).Pairwise (fun a b => key b ≤ key a) := by
  induction l with
  | nil => simp [stableSortDesc]
  | cons x xs ih => exact insertDesc_pairwise ih

theorem filter_insertDesc_of_eq {key : α → ℚ} {x : α} {l : List α} {s : ℚ}
    (hx : key x = s) :
    (insertDesc key x l).filter (fun a => key a = s) =
      x :: l.filter (fun a => key a = s) := by
  induction l with
  | nil => simp [insertDesc, hx]
  | cons y ys ih =>
    by_cases hle : key y ≤ key x
    · rw [insertDesc, if_pos hle]
      simp [List.filter_cons, hx]
    · have hy : ¬ (key y = s) := fun hys => hle (by rw [hx, hys])
      simp only [insertDesc, if_neg hle, List.filter_cons]
      simp only [decide_eq_true_eq, hy, if_false, ih]

theorem filter_insertDesc_of_ne {key : α → ℚ} {x : α} {l : List α} {s : ℚ}
    (hx : ¬ key x = s) :
    (insertDesc key x l).filter (fun a => key a = s) =
      l.filter (fun a => key a = s) := by
  induction l with
  | nil => simp [insertDesc, hx]
  | cons y ys ih =>
    by_cases hle : key y ≤ key x
    · simp [insertDesc, hle, hx]
    · simp only [insertDesc, if_neg hle, List.filter_cons]
      by_cases hy : key y = s <;> simp [hy, ih]

/-- Stability of the descending sort: the entries of any one key value keep
their original relative order. -/
theorem stableSortDesc_filter (key : α → ℚ) (l : List α) (s : ℚ) :
    (stableSortDesc key l).filter (fun a => key a = s) =
      l.filter (fun a => key a = s) := by
  induction l with
  | nil => rfl
  | cons x xs ih =>
    by_cases hx : key x = s
    · rw [stableSortDesc, filter_insertDesc_of_eq hx, ih, List.filter_cons_of_pos (by simp [hx])]
    · rw [stableSortDesc, filter_insertDesc_of_ne hx, ih, List.filter_cons_of_neg (by simp [hx])]

/-- A list already strictly descending is left unchanged by the sort. -/
theorem stableSortDesc_of_sorted {key : α → ℚ} {l : List α}
    (h : l.Pairwise (fun a b => key b < key a)) : stableSortDesc key l = l := by
  induction l with
  | nil => rfl
  | cons x xs ih =>
    rcases List.pairwise_cons.mp h with ⟨hx, hxs⟩
    rw [stableSortDesc, ih hxs]
    cases xs with
    | nil => rfl
    | cons y ys => simp [insertDesc, le_of_lt (hx y (by simp))]

/-! ### Lemmas about the insertion-ordered dicts -/

theorem lookupM_isSome_iff {m : List (String × β)} {i : String} :
    (lookupM m i).isSome ↔ i ∈ m.map Prod.fst := by
  induction m with
  | nil => simp [lookupM]
  | cons p t ih =>
    by_cases h : p.1 = i
    · simp [lookupM, h]
    · simpa [lookupM, h, Ne.symm h] using ih

theorem addScore_fst {l : List (String × ℚ)} {i : String} {c : ℚ} :
    (addScore l i c).map Prod.fst =
      if i ∈ l.map Prod.fst then l.map Prod.fst else l.map Prod.fst ++ [i] := by
  induction l with
  | nil => simp [addScore]
  | cons p t ih =>
    by_cases h : p.1 = i
    · simp [addScore, h]
    · simp only [addScore, if_neg h, List.map_cons, ih]
      by_cases hm : i ∈ t.map Prod.fst <;> simp [hm, h, Ne.symm h]

theorem addScore_sub {l : List (String × ℚ)} {i : String} {c : ℚ} :
    l.map Prod.fst ⊆ (addScore l i c).map Prod.fst := by
  rw [addScore_fst]; split <;> simp [List.subset_append_left]

theorem mem_addScore_fst {l : List (String × ℚ)} {i : String} {c : ℚ} :
    i ∈ (addScore l i c).map Prod.fst := by
  rw [addScore_fst]; split <;> simp_all

theorem addScore_nodup {l : List (String × ℚ)} {i : String} {c : ℚ}
    (h : (l.map Prod.fst).Nodup) : ((addScore l i c).map Prod.fst).Nodup := by
  rw [addScore_fst]
  split
  · exact h
  · simpa [List.nodup_append] using ⟨h, by simp_all⟩

theorem lookupM_addScore {l : List (String × ℚ)} {i j : String} {c : ℚ} :
    lookupM (addScore l i c) j =
      if j = i then some ((lookupM l i).getD 0 + c) else lookupM l j := by
  induction l with
  | nil => by_cases h : j = i <;> simp [addScore, lookupM, h, Ne.symm, add_comm]
  | cons p t ih =>
    by_cases hpi : p.1 = i
    · by_cases hji : j = i
      · simp [addScore, lookupM, hpi, hji]
      · have hij : ¬ i = j := fun hh => hji hh.symm
        simp [addScore, lookupM, hpi, hji, hij]
    · by_cases hpj : p.1 = j
      · have hji : ¬ j = i := fun hh => hpi (hpj.trans hh)
        simp [addScore, lookupM, hpi, hpj, hji]
      · simp [addScore, lookupM, hpi, hpj, ih]

theorem lookupM_setMap {m : List (String × RDict)} {i j : String} {r : RDict} :
    lookupM (setMap m i r) j = if j = i then some r else lookupM m j := by
  induction m with
  | nil => by_cases h : j = i <;> simp [setMap, lookupM, h, Ne.symm]
  | cons p t ih =>
    by_cases hpi : p.1 = i
    · by_cases hji : j = i
      · simp [setMap, lookupM, hpi, hji]
      · have hij : ¬ i = j := fun hh => hji hh.symm
        simp [setMap, lookupM, hpi, hji, hij]
    · by_cases hpj : p.1 = j
      · have hji : ¬ j = i := fun hh => hpi (hpj.trans hh)
        simp [setMap, lookupM, hpi, hpj, hji]
      · simp [setMap, lookupM, hpi, hpj, ih]

theorem lookupM_append_left {m m' : List (String × β)} {i : String}
    (h : (lookupM m i).isSome) : lookupM (m ++ m') i = lookupM m i := by
  induction m with
  | nil => simp [lookupM] at h
  | cons p t ih =>
    by_cases hpi : p.1 = i
    · simp [lookupM, hpi]
    · simp only [lookupM, hpi, if_neg] at h ⊢
      exact ih h

theorem lookupM_append_right {m m' : List (String × β)} {i : String}
    (h : ¬ (lookupM m i).isSome) : lookupM (m ++ m') i = lookupM m' i := by
  induction m with
  | nil => simp [lookupM]
  | cons p t ih =>
    by_cases hpi : p.1 = i
    · simp [lookupM, hpi] at h
    · simp only [lookupM, hpi, if_neg] at h ⊢
      exact ih h

theorem scoresFold_append {l : List (String × ℚ)} {cs cs' : List (String × ℚ)} :
    scoresFold l (cs ++ cs') = scoresFold (scoresFold l cs) cs' :=
  List.foldl_append ..

theorem vecLoop_fst (k : ℕ) (V : List RDict) :
    ∀ (n : ℕ) (st : FusedSt),
      (vecLoop k n V st).1 = scoresFold st.1 (tagContribs k n ((vecIds n V).map some)) := by
  induction V with
  | nil => intro n st; rfl
  | cons r t ih =>
    intro n st
    rw [vecLoop, ih]
    rfl

theorem lexLoop_fst (docs : List RDict) (k : ℕ) (L : List (ℕ × ℚ)) :
    ∀ (n : ℕ) (st : FusedSt),
      (lexLoop docs k n L st).1 = scoresFold st.1 (tagContribs k n (lexIds docs L)) := by
  induction L with
  | nil => intro n st; rfl
  | cons p t ih =>
    intro n st
    rcases p with ⟨idx, s⟩
    rw [lexLoop]
    cases h : docs.get? idx with
    | none =>
      rw [ih]
      simp only [lexIds, List.map_cons, h, Option.map_none', tagContribs]
    | some d =>
      rw [ih]
      simp only [lexIds, List.map_cons, h, Option.map_some', tagContribs, scoresFold,
        List.foldl_cons]

theorem rrfState_fst (docs V : List RDict) (L : List (ℕ × ℚ)) (k : ℕ) :
    (rrfState docs V L k).1 = fusedItems docs V L k := by
  rw [rrfState, lexLoop_fst, vecLoop_fst, fusedItems, scoresFold_append]

/-- Keys of the fused dict stay present under further accumulation steps. -/
theorem scoresFold_sub {l : List (String × ℚ)} {cs : List (String × ℚ)} :
    l.map Prod.fst ⊆ (scoresFold l cs).map Prod.fst := by
  induction cs generalizing l with
  | nil => exact fun a h => h
  | cons p t ih => exact fun a h => ih (addScore_sub h)

theorem scoresFold_nodup {l : List (String × ℚ)} {cs : List (String × ℚ)}
    (h : (l.map Prod.fst).Nodup) : ((scoresFold l cs).map Prod.fst).Nodup := by
  induction cs generalizing l with
  | nil => exact h
  | cons p t ih => exact ih (addScore_nodup h)

theorem fusedItems_nodup (docs V : List RDict) (L : List (ℕ × ℚ)) (k : ℕ) :
    ((fusedItems docs V L k).map Prod.fst).Nodup :=
  scoresFold_nodup (by simp)

/-- Membership in the fused keys is membership in the contribution sequence. -/
theorem mem_scoresFold {l : List (String × ℚ)} {cs : List (String × ℚ)} {i : String} :
    i ∈ (scoresFold l cs).map Prod.fst ↔ i ∈ l.map Prod.fst ∨ i ∈ cs.map Prod.fst := by
  induction cs generalizing l with
  | nil => simp [scoresFold]
  | cons p t ih =>
    have : i ∈ (addScore l p.1 p.2).map Prod.fst ↔ i ∈ l.map Prod.fst ∨ i = p.1 := by
      rw [addScore_fst]
      by_cases hm : p.1 ∈ l.map Prod.fst
      · rw [if_pos hm]
        exact ⟨Or.inl, fun h => h.elim id (fun hip => hip ▸ hm)⟩
      · rw [if_neg hm]
        simp
    rw [scoresFold, List.foldl_cons, ← scoresFold, ih, this]
    simp only [List.map_cons, List.mem_cons]
    tauto

theorem totalContrib_append {i : String} {cs cs' : List (String × ℚ)} :
    totalContrib i (cs ++ cs') = totalContrib i cs + totalContrib i cs' := by
  simp [totalContrib]

/-- Accumulated value of a key after a fold: base value plus total
contribution. -/
theorem lookupM_scoresFold {l : List (String × ℚ)} {cs : List (String × ℚ)} {i : String} :
    (lookupM (scoresFold l cs) i).getD 0 = (lookupM l i).getD 0 + totalContrib i cs := by
  induction cs generalizing l with
  | nil => simp [scoresFold, totalContrib]
  | cons p t ih =>
    rw [scoresFold, List.foldl_cons, ← scoresFold, ih, lookupM_addScore]
    by_cases hip : i = p.1
    · subst hip
      simp [totalContrib, List.filter_cons, add_assoc]
    · have hpi : ¬ p.1 = i := fun hh => hip hh.symm
      simp [hip, totalContrib, List.filter_cons, hpi]

/-! ### Contribution accounting for an id with a well-defined rank -/

theorem tagContribs_fst {k : ℕ} : ∀ {n : ℕ} {ids : List (Option String)},
    (tagContribs k n ids).map Prod.fst = ids.reduceOption := by
  intro n ids
  induction ids generalizing n with
  | nil => rfl
  | cons o t ih =>
    cases o with
    | none => simpa [tagContribs, List.reduceOption_cons_of_none] using ih
    | some i => simpa [tagContribs, List.reduceOption_cons_of_some] using ih

theorem tagContribs_filter_nil {k : ℕ} {i : String} :
    ∀ {n : ℕ} {ids : List (Option String)}, ids.count (some i) = 0 →
      (tagContribs k n ids).filter (fun p => p.1 = i) = [] := by
  intro n ids
  induction ids generalizing n with
  | nil => intro _; rfl
  | cons o t ih =>
    intro h
    rw [List.count_cons] at h
    cases o with
    | none =>
      rw [tagContribs]
      exact ih (by omega)
    | some j =>
      have hji : ¬ (j = i) := by
        intro hji; subst hji
        simp at h
      rw [tagContribs, List.filter_cons_of_neg (by simpa using hji)]
      exact ih (by omega)

theorem tagContribs_filter_single {k : ℕ} {i : String} :
    ∀ {n r : ℕ} {ids : List (Option String)},
      ids.count (some i) = 1 → ids.get? r = some (some i) →
      (tagContribs k n ids).filter (fun p => p.1 = i) = [(i, contribution k (n + r))] := by
  intro n r ids
  induction ids generalizing n r with
  | nil => intro _ hg; simp at hg
  | cons o t ih =>
    intro hc hg
    rw [List.count_cons] at hc
    cases o with
    | none =>
      cases r with
      | zero => simp at hg
      | succ r' =>
        rw [tagContribs]
        have heq : n + (r' + 1) = (n + 1) + r' := by omega
        rw [heq]
        rw [if_neg (by simp)] at hc
        exact ih (by omega) (by simpa using hg)
    | some j =>
      by_cases hji : j = i
      · subst hji
        have ht : t.count (some j) = 0 := by
          rw [if_pos (by simp)] at hc
          omega
        cases r with
        | zero =>
          rw [tagContribs, List.filter_cons_of_pos (by simp)]
          rw [tagContribs_filter_nil ht]
          simp
        | succ r' =>
          exfalso
          have hm : some j ∈ t := List.get?_mem (by simpa using hg)
          rw [← List.count_pos_iff] at hm
          omega
      · cases r with
        | zero =>
          rw [List.get?_cons_zero, Option.some_inj, Option.some_inj] at hg
          exact absurd hg hji
        | succ r' =>
          have ht : t.count (some i) = 1 := by
            rw [if_neg (by simpa using fun hh : j = i => hji hh)] at hc
            omega
          rw [tagContribs, List.filter_cons_of_neg (by simpa using hji)]
          have heq : n + (r' + 1) = (n + 1) + r' := by omega
          rw [heq]
          exact ih ht (by simpa using hg)

theorem totalContrib_of_single {i : String} {cs : List (String × ℚ)} {c : ℚ}
    (h : cs.filter (fun p => p.1 = i) = [(i, c)]) : totalContrib i cs = c := by
  rw [totalContrib, h]; simp

theorem mapDom_vecLoop {k : ℕ} {V : List RDict} :
    ∀ {n : ℕ} {st : FusedSt}, mapDom st → mapDom (vecLoop k n V st) := by
  induction V with
  | nil => intro n st h; exact h
  | cons r t ih =>
    intro n st h
    rw [vecLoop]
    refine ih ?_
    intro j hj
    rw [addScore_fst] at hj
    rw [lookupM_setMap]
    by_cases hji : j = vecId n r
    · simp [hji]
    · rw [if_neg hji]
      refine h j ?_
      rcases (by split at hj <;> simp_all : j ∈ st.1.map Prod.fst ∨ j = vecId n r) with hm | hm
      · exact hm
      · exact absurd hm hji

theorem mapDom_lexLoop {docs : List RDict} {k : ℕ} {L : List (ℕ × ℚ)} :
    ∀ {n : ℕ} {st : FusedSt}, mapDom st → mapDom (lexLoop docs k n L st) := by
  induction L with
  | nil => intro n st h; exact h
  | cons p t ih =>
    intro n st h
    rcases p with ⟨idx, s⟩
    rw [lexLoop]
    cases hd : docs.get? idx with
    | none => exact ih h
    | some d =>
      refine ih ?_
      intro j hj
      rw [addScore_fst] at hj
      have hj' : j ∈ st.1.map Prod.fst ∨ j = docId idx d := by
        split at hj <;> simp_all
      by_cases hp : (lookupM st.2 (docId idx d)).isSome
      · simp only [if_pos hp]
        rcases hj' with hm | hm
        · exact h j hm
        · exact hm ▸ hp
      · simp only [if_neg hp]
        by_cases hji : j = docId idx d
        · subst hji
          rw [lookupM_append_right hp]
          simp [lookupM]
        · rcases hj' with hm | hm
          · rw [lookupM_append_left (h j hm)]
            exact h j hm
          · exact absurd hm hji

theorem rrfState_mapDom (docs V : List RDict) (L : List (ℕ × ℚ)) (k : ℕ) :
    mapDom (rrfState docs V L k) :=
  mapDom_lexLoop (mapDom_vecLoop (fun i h => by simp at h))

theorem rrfPairs_eq (docs V : List RDict) (L : List (ℕ × ℚ)) (k : ℕ) :
    rrfPairs docs V L k =
      (stableSortDesc Prod.snd (rrfState docs V L k).1).filterMap
        (entryFn (rrfState docs V L k).2) := rfl

theorem filterMap_entryFn_fst {m : List (String × RDict)} {l : List (String × ℚ)}
    (h : ∀ p ∈ l, (lookupM m p.1).isSome) :
    (l.filterMap (entryFn m)).map Prod.fst = l.map Prod.fst := by
  induction l with
  | nil => rfl
  | cons p t ih =>
    rcases Option.isSome_iff_exists.mp (h p (by simp)) with ⟨r, hr⟩
    rw [List.filterMap_cons, entryFn, hr]
    simpa using ih (fun q hq => h q (by simp [hq]))

/-- Filtering commutes with a `filterMap` whose per-item result satisfies the
output predicate exactly when the input satisfies the input predicate. -/
theorem filterMap_filter_comm {f : (String × ℚ) → Option (String × RDict)}
    {P : (String × ℚ) → Bool} {Q : (String × RDict) → Bool}
    (hf : ∀ p b, f p = some b → Q b = P p) :
    ∀ {l : List (String × ℚ)}, (l.filterMap f).filter Q = (l.filter P).filterMap f := by
  intro l
  induction l with
  | nil => rfl
  | cons p t ih =>
    rw [List.filterMap_cons]
    cases hfp : f p with
    | none =>
      rw [List.filter_cons]
      by_cases hP : P p
      · rw [if_pos (by simpa using hP), List.filterMap_cons, hfp]; exact ih
      · rw [if_neg (by simpa using hP)]; exact ih
    | some b =>
      have hQ : Q b = P p := hf p b hfp
      by_cases hP : P p
      · rw [List.filter_cons_of_pos (by simp [hQ, hP]),
          List.filter_cons_of_pos (by simpa using hP), List.filterMap_cons, hfp, ih]
      · rw [List.filter_cons_of_neg (by simp [hQ, hP]),
          List.filter_cons_of_neg (by simpa using hP), ih]

theorem filterMap_entryFn_filter_key {m : List (String × RDict)} {l : List (String × ℚ)}
    {i : String} :
    (l.filterMap (entryFn m)).filter (fun q => q.1 = i) =
      (l.filter (fun p => p.1 = i)).filterMap (entryFn m) := by
  refine filterMap_filter_comm (fun p b hb => ?_)
  rcases Option.map_eq_some'.mp hb with ⟨r, _, rfl⟩
  rfl

theorem filterMap_entryFn_filter_score {m : List (String × RDict)} {l : List (String × ℚ)}
    {s : ℚ} :
    (l.filterMap (entryFn m)).filter (fun q => q.2.fused_score = some s) =
      (l.filter (fun p => p.2 = s)).filterMap (entryFn m) := by
  refine filterMap_filter_comm (fun p b hb => ?_)
  rcases Option.map_eq_some'.mp hb with ⟨r, _, rfl⟩
  simp

theorem filter_eq_nil_of_not_mem {l : List (String × β)} {i : String}
    (h : ¬ i ∈ l.map Prod.fst) : l.filter (fun p => p.1 = i) = [] := by
  induction l with
  | nil => rfl
  | cons p t ih =>
    simp only [List.map_cons, List.mem_cons, not_or] at h
    rw [List.filter_cons_of_neg (by simpa using fun hh => h.1 hh.symm)]
    exact ih h.2

theorem filter_eq_single_of_nodup {l : List (String × ℚ)} {i : String} {v : ℚ}
    (hn : (l.map Prod.fst).Nodup) (hl : lookupM l i = some v) :
    l.filter (fun p => p.1 = i) = [(i, v)] := by
  induction l with
  | nil => simp [lookupM] at hl
  | cons p t ih =>
    rw [List.map_cons, List.nodup_cons] at hn
    by_cases hpi : p.1 = i
    · rw [lookupM, if_pos hpi] at hl
      rw [List.filter_cons_of_pos (by simpa using hpi)]
      have : p = (i, v) := by
        rcases p with ⟨p1, p2⟩
        simp only at hpi
        cases hl
        rw [hpi]
      rw [this, filter_eq_nil_of_not_mem (hpi ▸ hn.1)]
    · rw [lookupM, if_neg hpi] at hl
      rw [List.filter_cons_of_neg (by simpa using hpi)]
      exact ih hn.2 hl

/-! ### Claim-level facts about the fusion -/

theorem contribution_pos {k n : ℕ} : 0 < contribution k n := by
  rw [contribution]; positivity

theorem sorted_lookup_isSome (docs V : List RDict) (L : List (ℕ × ℚ)) (k : ℕ) :
    ∀ p ∈ stableSortDesc Prod.snd (rrfState docs V L k).1,
      (lookupM (rrfState docs V L k).2 p.1).isSome := by
  intro p hp
  have hmem : p ∈ (rrfState docs V L k).1 :=
    ((stableSortDesc_perm Prod.snd _).mem_iff).mp hp
  exact rrfState_mapDom docs V L k p.1 (List.mem_map_of_mem Prod.fst hmem)

theorem rrfPairs_fst (docs V : List RDict) (L : List (ℕ × ℚ)) (k : ℕ) :
    (rrfPairs docs V L k).map Prod.fst =
      (stableSortDesc Prod.snd (fusedItems docs V L k)).map Prod.fst := by
  rw [rrfPairs_eq, filterMap_entryFn_fst (sorted_lookup_isSome docs V L k), rrfState_fst]

theorem rrfPairs_fst_perm (docs V : List RDict) (L : List (ℕ × ℚ)) (k : ℕ) :
    ((rrfPairs docs V L k).map Prod.fst).Perm ((fusedItems docs V L k).map Prod.fst) := by
  rw [rrfPairs_fst]
  exact (stableSortDesc_perm Prod.snd _).map Prod.fst

theorem rrfPairs_fst_nodup (docs V : List RDict) (L : List (ℕ × ℚ)) (k : ℕ) :
    ((rrfPairs docs V L k).map Prod.fst).Nodup :=
  ((rrfPairs_fst_perm docs V L k).symm).nodup (fusedItems_nodup docs V L k)

theorem count_map_some (l : List String) (i : String) :
    (l.map some).count (some i) = l.count i := by
  induction l with
  | nil => rfl
  | cons a t ih =>
    rw [List.map_cons, List.count_cons, List.count_cons, ih]
    by_cases h : i = a <;> simp [h]

theorem reduceOption_map_some (l : List String) : (l.map some).reduceOption = l := by
  induction l with
  | nil => rfl
  | cons a t ih => rw [List.map_cons, List.reduceOption_cons_of_some, ih]

theorem scoresFold_fst {cs : List (String × ℚ)} :
    ∀ {l : List (String × ℚ)}, (scoresFold l cs).map Prod.fst =
      l.map Prod.fst ++
        firstDedup ((cs.map Prod.fst).filter (fun x => ¬ x ∈ l.map Prod.fst)) := by
  induction cs with
  | nil => intro l; simp [scoresFold, firstDedup]
  | cons p t ih =>
    intro l
    rw [scoresFold, List.foldl_cons, ← scoresFold, ih]
    by_cases hm : p.1 ∈ l.map Prod.fst
    · rw [addScore_fst, if_pos hm, List.map_cons, List.filter_cons_of_neg (by simp [hm])]
    · rw [addScore_fst, if_neg hm, List.map_cons, List.filter_cons_of_pos (by simp [hm]),
        firstDedup, List.append_assoc, List.singleton_append]
      have hfilters : (t.map Prod.fst).filter
            (fun x => ¬ x ∈ (l.map Prod.fst ++ [p.1])) =
          ((t.map Prod.fst).filter (fun x => ¬ x ∈ l.map Prod.fst)).filter
            (fun x => ¬ x = p.1) := by
        rw [List.filter_filter]
        refine List.filter_congr (fun x _ => ?_)
        simp only [List.mem_append, List.mem_singleton, not_or, decide_not]
        cases hx1 : decide (x ∈ l.map Prod.fst) <;>
          cases hx2 : decide (x = p.1) <;> simp_all
      rw [hfilters]

/-- The fused keys are the distinct contributing ids in first-contribution
order: every vector-derived id (in vector rank order) before every new
in-range lexical id (in lexical rank order). -/
theorem fusedItems_fst (docs V : List RDict) (L : List (ℕ × ℚ)) (k : ℕ) :
    (fusedItems docs V L k).map Prod.fst =
      firstDedup (vecIds 0 V ++ (lexIds docs L).reduceOption) := by
  rw [fusedItems, scoresFold_fst]
  have h1 : ((tagContribs k 0 ((vecIds 0 V).map some) ++
      tagContribs k 0 (lexIds docs L)).map Prod.fst) =
      vecIds 0 V ++ (lexIds docs L).reduceOption := by
    rw [List.map_append, tagContribs_fst, tagContribs_fst, reduceOption_map_some]
  rw [h1, List.map_nil, List.nil_append]
  congr 1
  exact List.filter_eq_self.mpr (fun x _ => by simp)



/-- Resolved fused value of an id with well-defined ranks in both lists. -/
theorem lookupM_fusedItems (docs V : List RDict) (L : List (ℕ × ℚ)) (k : ℕ)
    (i : String) (r1 r2 : ℕ)
    (hv1 : (vecIds 0 V).get? r1 = some i) (hv2 : (vecIds 0 V).count i = 1)
    (hl1 : (lexIds docs L).get? r2 = some (some i))
    (hl2 : (lexIds docs L).count (some i) = 1) :
    lookupM (fusedItems docs V L k) i = some (contribution k r1 + contribution k r2) := by
  have hv1' : ((vecIds 0 V).map some).get? r1 = some (some i) := by
    rw [List.get?_map, hv1]; rfl
  have hv2' : ((vecIds 0 V).map some).count (some i) = 1 := by
    rw [count_map_some]; exact hv2
  have hfV : (tagContribs k 0 ((vecIds 0 V).map some)).filter (fun p => p.1 = i) =
      [(i, contribution k r1)] := by
    have := tagContribs_filter_single (k := k) (n := 0) hv2' hv1'
    rwa [Nat.zero_add] at this
  have hfL : (tagContribs k 0 (lexIds docs L)).filter (fun p => p.1 = i) =
      [(i, contribution k r2)] := by
    have := tagContribs_filter_single (k := k) (n := 0) hl2 hl1
    rwa [Nat.zero_add] at this
  have htot : totalContrib i
      (tagContribs k 0 ((vecIds 0 V).map some) ++ tagContribs k 0 (lexIds docs L)) =
      contribution k r1 + contribution k r2 := by
    rw [totalContrib_append, totalContrib_of_single hfV, totalContrib_of_single hfL]
  have hmem : i ∈ (fusedItems docs V L k).map Prod.fst := by
    rw [fusedItems, mem_scoresFold]
    right
    rw [List.map_append]
    refine List.mem_append.mpr (Or.inl ?_)
    have : (i, contribution k r1) ∈ (tagContribs k 0 ((vecIds 0 V).map some)).filter
        (fun p => p.1 = i) := by rw [hfV]; simp
    exact List.mem_map_of_mem Prod.fst (List.mem_of_mem_filter this)
  have hsome : (lookupM (fusedItems docs V L k) i).isSome := lookupM_isSome_iff.mpr hmem
  rcases Option.isSome_iff_exists.mp hsome with ⟨v, hv⟩
  have hveq : v = contribution k r1 + contribution k r2 := by
    have hval := @lookupM_scoresFold ([] : List (String × ℚ))
      (tagContribs k 0 ((vecIds 0 V).map some) ++ tagContribs k 0 (lexIds docs L)) i
    rw [← fusedItems, hv, htot] at hval
    simpa [lookupM] using hval
  rw [hv, hveq]

/-- Claim C1 (RRF fusion additivity): an id ranked `r1` in the vector list and
— through an in-range chunk index — ranked `r2` in the lexical list yields
exactly one fused entry, whose `fused_score` is
`1/(k+r1+1) + 1/(k+r2+1)`, strictly greater than either summand; and no id
ever produces two fused entries.  Ranks are well-defined: each occurrence
hypothesis states that the id is derived at that rank and at no other. -/
theorem rrf_fusion_additivity
    (docs V : List RDict) (L : List (ℕ × ℚ)) (k : ℕ) (i : String) (r1 r2 : ℕ)
    (hv1 : (vecIds 0 V).get? r1 = some i) (hv2 : (vecIds 0 V).count i = 1)
    (hl1 : (lexIds docs L).get? r2 = some (some i))
    (hl2 : (lexIds docs L).count (some i) = 1) :
    (∃ e : RDict,
        (rrfPairs docs V L k).filter (fun p => p.1 = i) = [(i, e)] ∧
        e.fused_score = some (1 / ((k : ℚ) + r1 + 1) + 1 / ((k : ℚ) + r2 + 1))) ∧
    1 / ((k : ℚ) + r1 + 1) < 1 / ((k : ℚ) + r1 + 1) + 1 / ((k : ℚ) + r2 + 1) ∧
    1 / ((k : ℚ) + r2 + 1) < 1 / ((k : ℚ) + r1 + 1) + 1 / ((k : ℚ) + r2 + 1) ∧
    ((rrfPairs docs V L k).map Prod.fst).Nodup ∧
    reciprocal_rank_fusion docs V L k = (rrfPairs docs V L k).map Prod.snd := by
  have hc1 : contribution k r1 = 1 / ((k : ℚ) + r1 + 1) := rfl
  have hc2 : contribution k r2 = 1 / ((k : ℚ) + r2 + 1) := rfl
  have hlook := lookupM_fusedItems docs V L k i r1 r2 hv1 hv2 hl1 hl2
  refine ⟨?_, ?_, ?_, rrfPairs_fst_nodup docs V L k, rfl⟩
  · have hfused : (fusedItems docs V L k).filter (fun p => p.1 = i) =
        [(i, contribution k r1 + contribution k r2)] :=
      filter_eq_single_of_nodup (fusedItems_nodup docs V L k) hlook
    have hsorted : (stableSortDesc Prod.snd (fusedItems docs V L k)).filter
        (fun p => p.1 = i) = [(i, contribution k r1 + contribution k r2)] := by
      refine List.Perm.eq_singleton ?_
      rw [← hfused]
      exact ((stableSortDesc_perm Prod.snd _).filter _)
    have hiso : (lookupM (rrfState docs V L k).2 i).isSome := by
      refine sorted_lookup_isSome docs V L k (i, contribution k r1 + contribution k r2) ?_
      have : (i, contribution k r1 + contribution k r2) ∈
          (stableSortDesc Prod.snd (fusedItems docs V L k)).filter (fun p => p.1 = i) := by
        rw [hsorted]; simp
      rw [rrfState_fst]
      exact List.mem_of_mem_filter this
    rcases Option.isSome_iff_exists.mp hiso with ⟨r, hr⟩
    refine ⟨{ r with fused_score := some (contribution k r1 + contribution k r2) }, ?_, ?_⟩
    · rw [rrfPairs_eq, filterMap_entryFn_filter_key, rrfState_fst, hsorted,
        List.filterMap_cons, entryFn, hr]
      simp
    · rw [hc1, hc2]
  · rw [← hc1, ← hc2]
    have := contribution_pos (k := k) (n := r2)
    linarith
  · rw [← hc1, ← hc2]
    have := contribution_pos (k := k) (n := r1)
    linarith

/-- Claim C10 (fusion completeness): the fused output has exactly one entry
for each distinct id occurring in the vector list or carried by an in-range
lexical result, and no others. -/
theorem rrf_fusion_completeness
    (docs V : List RDict) (L : List (ℕ × ℚ)) (k : ℕ) (i : String) :
    (((rrfPairs docs V L k).map Prod.fst).count i =
      if i ∈ vecIds 0 V ∨ i ∈ (lexIds docs L).reduceOption then 1 else 0) ∧
    reciprocal_rank_fusion docs V L k = (rrfPairs docs V L k).map Prod.snd := by
  refine ⟨?_, rfl⟩
  rw [(rrfPairs_fst_perm docs V L k).count_eq]
  have hmem : i ∈ (fusedItems docs V L k).map Prod.fst ↔
      i ∈ vecIds 0 V ∨ i ∈ (lexIds docs L).reduceOption := by
    rw [fusedItems, mem_scoresFold, List.map_append, List.mem_append,
      tagContribs_fst, tagContribs_fst, reduceOption_map_some]
    simp
  by_cases h : i ∈ vecIds 0 V ∨ i ∈ (lexIds docs L).reduceOption
  · rw [if_pos h]
    exact List.count_eq_one_of_mem (fusedItems_nodup docs V L k) (hmem.mpr h)
  · rw [if_neg h]
    exact List.count_eq_zero.mpr (fun hc => h (hmem.mp hc))

/-- Claim C2 (fusion output order and determinism): the fused output is sorted
by `fused_score` descending; entries of equal fused score keep the order in
which their ids first contributed (`fusedItems` lists ids in first-contribution
order, every vector entry having been processed before every lexical entry);
and equal inputs give equal outputs, tie-break order included. -/
theorem rrf_order_determinism (docs V : List RDict) (L : List (ℕ × ℚ)) (k : ℕ) :
    ((rrfPairs docs V L k).Pairwise
      (fun a b => b.2.fused_score.getD 0 ≤ a.2.fused_score.getD 0)) ∧
    (∀ s : ℚ, ((rrfPairs docs V L k).filter (fun p => p.2.fused_score = some s)).map Prod.fst
        = ((fusedItems docs V L k).filter (fun p => p.2 = s)).map Prod.fst) ∧
    ((fusedItems docs V L k).map Prod.fst =
      firstDedup (vecIds 0 V ++ (lexIds docs L).reduceOption)) ∧
    (reciprocal_rank_fusion docs V L k = (rrfPairs docs V L k).map Prod.snd) ∧
    (∀ (docs' V' : List RDict) (L' : List (ℕ × ℚ)) (k' : ℕ),
      docs = docs' → V = V' → L = L' → k = k' →
      reciprocal_rank_fusion docs V L k = reciprocal_rank_fusion docs' V' L' k') := by
  refine ⟨?_, ?_, fusedItems_fst docs V L k, rfl, ?_⟩
  · rw [rrfPairs_eq]
    refine List.Pairwise.filterMap _ ?_ (stableSortDesc_pairwise Prod.snd _)
    intro a a' hle b hb b' hb'
    simp only [entryFn] at hb hb'
    rcases Option.map_eq_some'.mp hb with ⟨r, _, rfl⟩
    rcases Option.map_eq_some'.mp hb' with ⟨r', _, rfl⟩
    simpa using hle
  · intro s
    rw [rrfPairs_eq, filterMap_entryFn_filter_score, rrfState_fst, stableSortDesc_filter]
    have hsome : ∀ p ∈ (fusedItems docs V L k).filter (fun p => p.2 = s),
        (lookupM (rrfState docs V L k).2 p.1).isSome := by
      intro p hp
      exact rrfState_mapDom docs V L k p.1
        (by rw [rrfState_fst]; exact List.mem_map_of_mem Prod.fst (List.mem_of_mem_filter hp))
    rw [filterMap_entryFn_fst hsome]
  · intro docs' V' L' k' h1 h2 h3 h4
    rw [h1, h2, h3, h4]

theorem addScore_fresh {l : List (String × ℚ)} {i : String} {c : ℚ}
    (h : ¬ i ∈ l.map Prod.fst) : addScore l i c = l ++ [(i, c)] := by
  induction l with
  | nil => rfl
  | cons p t ih =>
    simp only [List.map_cons, List.mem_cons, not_or] at h
    rw [addScore, if_neg (fun hh => h.1 hh.symm), ih h.2]
    rfl

theorem setMap_fresh {m : List (String × RDict)} {i : String} {r : RDict}
    (h : ¬ i ∈ m.map Prod.fst) : setMap m i r = m ++ [(i, r)] := by
  induction m with
  | nil => rfl
  | cons p t ih =>
    simp only [List.map_cons, List.mem_cons, not_or] at h
    rw [setMap, if_neg (fun hh => h.1 hh.symm), ih h.2]
    rfl

theorem scoresFold_fresh :
    ∀ {cs l : List (String × ℚ)}, (∀ x ∈ cs.map Prod.fst, ¬ x ∈ l.map Prod.fst) →
      (cs.map Prod.fst).Nodup → scoresFold l cs = l ++ cs := by
  intro cs
  induction cs with
  | nil => intro l _ _; simp [scoresFold]
  | cons p t ih =>
    intro l hdis hnd
    rw [List.map_cons, List.nodup_cons] at hnd
    rw [scoresFold, List.foldl_cons, ← scoresFold,
      addScore_fresh (hdis p.1 (by simp)), ih ?_ hnd.2, List.append_assoc]
    · rfl
    · intro x hx
      rw [List.map_append]
      simp only [List.mem_append, not_or]
      exact ⟨hdis x (by simp [hx]), by
        simp only [List.map_cons, List.map_nil, List.mem_singleton]
        exact fun hh => hnd.1 (hh ▸ hx)⟩

theorem vecIds_cons {n : ℕ} {r : RDict} {t : List RDict} :
    vecIds n (r :: t) = vecId n r :: vecIds (n + 1) t := rfl

theorem vecPairs_fst : ∀ {n : ℕ} {V : List RDict},
    (vecPairs n V).map Prod.fst = vecIds n V := by
  intro n V
  induction V generalizing n with
  | nil => rfl
  | cons r t ih => simp [vecPairs, vecIds, ih]

theorem vecLoop_snd_fresh {k : ℕ} :
    ∀ {V : List RDict} {n : ℕ} {f : List (String × ℚ)} {m : List (String × RDict)},
      (∀ x ∈ vecIds n V, ¬ x ∈ m.map Prod.fst) → (vecIds n V).Nodup →
      (vecLoop k n V (f, m)).2 = m ++ vecPairs n V := by
  intro V
  induction V with
  | nil => intro n f m _ _; simp [vecLoop, vecPairs]
  | cons r t ih =>
    intro n f m hdis hnd
    rw [vecIds_cons, List.nodup_cons] at hnd
    rw [vecLoop, setMap_fresh (hdis (vecId n r) (by rw [vecIds_cons]; simp)),
      ih ?_ hnd.2, List.append_assoc]
    · rfl
    · intro x hx
      rw [List.map_append]
      simp only [List.mem_append, not_or]
      refine ⟨hdis x (by rw [vecIds_cons]; simp [hx]), ?_⟩
      simp only [List.map_cons, List.map_nil, List.mem_singleton]
      exact fun hh => hnd.1 (hh ▸ hx)

/-- Strict descent of the tagged contribution scores. -/
theorem contribution_lt {k n m : ℕ} (h : n < m) : contribution k m < contribution k n := by
  rw [contribution, contribution]
  have h1 : (0 : ℚ) < (k : ℚ) + (n : ℚ) + 1 := by positivity
  have h2 : ((k : ℚ) + (n : ℚ) + 1) < ((k : ℚ) + (m : ℚ) + 1) := by
    have : (n : ℚ) < (m : ℚ) := by exact_mod_cast h
    linarith
  exact one_div_lt_one_div_of_lt h1 h2

theorem mem_tagContribs_snd {k : ℕ} :
    ∀ {n : ℕ} {ids : List (Option String)} {p : String × ℚ},
      p ∈ tagContribs k n ids → ∃ m, n ≤ m ∧ p.2 = contribution k m := by
  intro n ids
  induction ids generalizing n with
  | nil => intro p hp; simp [tagContribs] at hp
  | cons o t ih =>
    intro p hp
    cases o with
    | none =>
      rcases ih (n := n + 1) hp with ⟨m, hm, he⟩
      exact ⟨m, by omega, he⟩
    | some i =>
      rw [tagContribs, List.mem_cons] at hp
      rcases hp with rfl | hp
      · exact ⟨n, le_refl n, rfl⟩
      · rcases ih (n := n + 1) hp with ⟨m, hm, he⟩
        exact ⟨m, by omega, he⟩

theorem tagContribs_strict {k : ℕ} :
    ∀ {n : ℕ} {ids : List (Option String)},
      (tagContribs k n ids).Pairwise (fun a b => b.2 < a.2) := by
  intro n ids
  induction ids generalizing n with
  | nil => simp [tagContribs]
  | cons o t ih =>
    cases o with
    | none => exact ih
    | some i =>
      rw [tagContribs]
      refine List.pairwise_cons.mpr ⟨?_, ih⟩
      intro p hp
      rcases mem_tagContribs_snd hp with ⟨m, hm, he⟩
      rw [he]
      exact contribution_lt (by omega)

/-- Core of the vector-only comparison: under distinct derived ids, resolving
the tagged vector contributions in the stored map yields the vector results in
order, annotated with their own contributions. -/
theorem filterMap_entryFn_vecPairs {k : ℕ} :
    ∀ {V : List RDict} {n : ℕ} {M : List (String × RDict)},
      (∀ x ∈ vecIds n V, ¬ x ∈ M.map Prod.fst) → (vecIds n V).Nodup →
      (tagContribs k n ((vecIds n V).map some)).filterMap (entryFn (M ++ vecPairs n V)) =
        vecOut k n V := by
  intro V
  induction V with
  | nil => intro n M _ _; simp [vecIds, tagContribs, vecOut, vecPairs]
  | cons r t ih =>
    intro n M hdis hnd
    rw [vecIds_cons, List.nodup_cons] at hnd
    rw [vecIds_cons, List.map_cons, tagContribs, List.filterMap_cons]
    have hnotM : ¬ (lookupM M (vecId n r)).isSome := by
      rw [lookupM_isSome_iff]
      exact hdis (vecId n r) (by rw [vecIds_cons]; simp)
    have hlk : lookupM (M ++ vecPairs n (r :: t)) (vecId n r) = some r := by
      rw [lookupM_append_right hnotM, vecPairs, lookupM, if_pos rfl]
    rw [entryFn, hlk, Option.map_some']
    have hM' : M ++ vecPairs n (r :: t) = (M ++ [(vecId n r, r)]) ++ vecPairs (n + 1) t := by
      rw [vecPairs, List.append_assoc]
      rfl
    rw [hM', ih ?_ hnd.2, vecOut]
    intro x hx
    rw [List.map_append]
    simp only [List.mem_append, not_or]
    refine ⟨hdis x (by rw [vecIds_cons]; simp [hx]), ?_⟩
    simp only [List.map_cons, List.map_nil, List.mem_singleton]
    exact fun hh => hnd.1 (hh ▸ hx)

/-- Vector-only fusion, as keyed pairs: fusing against an empty lexical list
returns the vector results in order, each annotated with its own rank
contribution. -/
theorem rrfPairs_vector_only (docs V : List RDict) (k : ℕ)
    (h : (vecIds 0 V).Nodup) : rrfPairs docs V [] k = vecOut k 0 V := by
  have hstate : rrfState docs V [] k = vecLoop k 0 V ([], []) := rfl
  have hfst : (vecLoop k 0 V ([], [])).1 =
      tagContribs k 0 ((vecIds 0 V).map some) := by
    rw [vecLoop_fst]
    refine scoresFold_fresh (by simp) ?_
    rw [tagContribs_fst, reduceOption_map_some]
    exact h
  have hsnd : (vecLoop k 0 V ([], [])).2 = vecPairs 0 V := by
    rw [vecLoop_snd_fresh (by simp) h]
    rfl
  rw [rrfPairs_eq, hstate, hfst, hsnd,
    stableSortDesc_of_sorted (tagContribs_strict (k := k) (n := 0))]
  have := filterMap_entryFn_vecPairs (k := k) (V := V) (n := 0) (M := [])
    (by simp) h
  rwa [List.nil_append] at this

theorem vecOut_strip {k : ℕ} : ∀ {n : ℕ} {V : List RDict},
    (vecOut k n V).map (stripFused ∘ Prod.snd) = V.map stripFused := by
  intro n V
  induction V generalizing n with
  | nil => rfl
  | cons r t ih => simp only [vecOut, List.map_cons, ih]; rfl

theorem lexIds_cons {docs : List RDict} {idx : ℕ} {s : ℚ} {t : List (ℕ × ℚ)} :
    lexIds docs ((idx, s) :: t) = (docs.get? idx).map (docId idx) :: lexIds docs t := rfl

theorem lexLoop_snd_fresh {docs : List RDict} {k : ℕ} :
    ∀ {L : List (ℕ × ℚ)} {n : ℕ} {f : List (String × ℚ)} {m : List (String × RDict)},
      (∀ x ∈ (lexIds docs L).reduceOption, ¬ x ∈ m.map Prod.fst) →
      ((lexIds docs L).reduceOption).Nodup →
      (lexLoop docs k n L (f, m)).2 = m ++ lexPairs docs L := by
  intro L
  induction L with
  | nil => intro n f m _ _; simp [lexLoop, lexPairs]
  | cons p t ih =>
    intro n f m hdis hnd
    rcases p with ⟨idx, s⟩
    rw [lexLoop, lexPairs]
    cases hd : docs.get? idx with
    | none =>
      rw [lexIds_cons, hd, Option.map_none', List.reduceOption_cons_of_none] at hdis hnd
      exact ih hdis hnd
    | some d =>
      rw [lexIds_cons, hd, Option.map_some', List.reduceOption_cons_of_some] at hdis hnd
      rw [List.nodup_cons] at hnd
      have hnotM : ¬ (lookupM m (docId idx d)).isSome := by
        rw [lookupM_isSome_iff]
        exact hdis (docId idx d) (by simp)
      dsimp only
      rw [if_neg hnotM, ih ?_ hnd.2, List.append_assoc]
      · rfl
      · intro x hx
        rw [List.map_append]
        simp only [List.mem_append, not_or]
        refine ⟨hdis x (by simp [hx]), ?_⟩
        simp only [List.map_cons, List.map_nil, List.mem_singleton]
        exact fun hh => hnd.1 (hh ▸ hx)

theorem filterMap_entryFn_lexPairs {docs : List RDict} {k : ℕ} :
    ∀ {L : List (ℕ × ℚ)} {n : ℕ} {M : List (String × RDict)},
      (∀ x ∈ (lexIds docs L).reduceOption, ¬ x ∈ M.map Prod.fst) →
      ((lexIds docs L).reduceOption).Nodup →
      (tagContribs k n (lexIds docs L)).filterMap (entryFn (M ++ lexPairs docs L)) =
        lexOut docs k n L := by
  intro L
  induction L with
  | nil => intro n M _ _; simp [lexIds, tagContribs, lexOut, lexPairs]
  | cons p t ih =>
    intro n M hdis hnd
    rcases p with ⟨idx, s⟩
    rw [lexIds_cons, lexOut, lexPairs]
    cases hd : docs.get? idx with
    | none =>
      rw [lexIds_cons, hd, Option.map_none', List.reduceOption_cons_of_none] at hdis hnd
      rw [Option.map_none', tagContribs]
      exact ih hdis hnd
    | some d =>
      rw [lexIds_cons, hd, Option.map_some', List.reduceOption_cons_of_some] at hdis hnd
      rw [List.nodup_cons] at hnd
      rw [Option.map_some', tagContribs, List.filterMap_cons]
      have hnotM : ¬ (lookupM M (docId idx d)).isSome := by
        rw [lookupM_isSome_iff]
        exact hdis (docId idx d) (by simp)
      have hlk : lookupM (M ++ (docId idx d, bm25Entry d idx s) :: lexPairs docs t)
          (docId idx d) = some (bm25Entry d idx s) := by
        rw [lookupM_append_right hnotM, lookupM, if_pos rfl]
      rw [entryFn, hlk, Option.map_some']
      have hM' : M ++ (docId idx d, bm25Entry d idx s) :: lexPairs docs t =
          (M ++ [(docId idx d, bm25Entry d idx s)]) ++ lexPairs docs t := by
        rw [List.append_assoc]
        rfl
      rw [hM', ih ?_ hnd.2]
      intro x hx
      rw [List.map_append]
      simp only [List.mem_append, not_or]
      refine ⟨hdis x (by simp [hx]), ?_⟩
      simp only [List.map_cons, List.map_nil, List.mem_singleton]
      exact fun hh => hnd.1 (hh ▸ hx)

/-- Lexical-only fusion, as keyed pairs: fusing against an empty vector list
returns the in-range lexical results in order, each annotated with its own
rank contribution. -/
theorem rrfPairs_lexical_only (docs : List RDict) (L : List (ℕ × ℚ)) (k : ℕ)
    (hnd : ((lexIds docs L).reduceOption).Nodup) :
    rrfPairs docs [] L k = lexOut docs k 0 L := by
  have hstate : rrfState docs [] L k = lexLoop docs k 0 L ([], []) := rfl
  have hfst : (lexLoop docs k 0 L ([], [])).1 = tagContribs k 0 (lexIds docs L) := by
    rw [lexLoop_fst]
    refine scoresFold_fresh (by simp) ?_
    rw [tagContribs_fst]
    exact hnd
  have hsnd : (lexLoop docs k 0 L ([], [])).2 = lexPairs docs L := by
    rw [lexLoop_snd_fresh (by simp) hnd]
    rfl
  rw [rrfPairs_eq, hstate, hfst, hsnd,
    stableSortDesc_of_sorted (tagContribs_strict (k := k) (n := 0))]
  have := filterMap_entryFn_lexPairs (k := k) (L := L) (n := 0) (M := [])
    (by simp) hnd
  rwa [List.nil_append] at this

theorem lexOut_strip {docs : List RDict} {k : ℕ} : ∀ {n : ℕ} {L : List (ℕ × ℚ)},
    (lexOut docs k n L).map (stripFused ∘ Prod.snd) =
      L.filterMap (fun p => (docs.get? p.1).map fun d => bm25Entry d p.1 p.2) := by
  intro n L
  induction L generalizing n with
  | nil => rfl
  | cons p t ih =>
    rcases p with ⟨idx, s⟩
    rw [lexOut, List.filterMap_cons]
    cases hd : docs.get? idx with
    | none => rw [Option.map_none']; exact ih
    | some d =>
      rw [Option.map_some', List.map_cons, ih]
      rfl

theorem lexOnlyResults_take {docs : List RDict} :
    ∀ {L : List (ℕ × ℚ)} {n : ℕ}, (∀ p ∈ L, p.1 < docs.length) →
      lexOnlyResults docs L n =
        (L.filterMap (fun p => (docs.get? p.1).map fun d => bm25Entry d p.1 p.2)).take n := by
  intro L
  induction L with
  | nil => intro n _; simp [lexOnlyResults]
  | cons p t ih =>
    intro n hin
    rcases p with ⟨idx, s⟩
    cases hd : docs.get? idx with
    | none =>
      exfalso
      have := List.get?_eq_none.mp hd
      have := hin (idx, s) (by simp)
      omega
    | some d =>
      cases n with
      | zero => simp [lexOnlyResults]
      | succ n' =>
        rw [lexOnlyResults, List.take_succ_cons, List.filterMap_cons, hd, Option.map_some',
          List.filterMap_cons, hd, Option.map_some', List.take_succ_cons]
        have := ih (n := n') (fun q hq => hin q (by simp [hq]))
        rw [lexOnlyResults] at this
        rw [this]

theorem lexOnlyResults_source {docs : List RDict} {L : List (ℕ × ℚ)} {n : ℕ} :
    ∀ e ∈ lexOnlyResults docs L n, e.source = some "bm25" := by
  intro e he
  rcases List.mem_filterMap.mp he with ⟨p, _, hmap⟩
  rcases Option.map_eq_some'.mp hmap with ⟨d, _, rfl⟩
  rfl

/-- Claim C6 (graceful degradation on vector failure): when the vector
collaborator raises, `search` completes and returns exactly the lexical-only
result list, every entry of which is tagged `source = "bm25"`; an empty
result set is returned as `[]`, never an error. -/
theorem search_vector_error_degrades (gs : GetScores) (s : HState) (q : String)
    (n : ℕ) (err : String) :
    search gs (fun _ _ => Except.error err) s q n =
      lexOnlyResults s.documents (bm25_search gs s q (min (n * 3) 50)) n ∧
    ∀ e ∈ search gs (fun _ _ => Except.error err) s q n, e.source = some "bm25" := by
  have h1 : search gs (fun _ _ => Except.error err) s q n =
      lexOnlyResults s.documents (bm25_search gs s q (min (n * 3) 50)) n := by
    by_cases hb : bm25_search gs s q (min (n * 3) 50) = []
    · simp [search, vecList, hb, lexOnlyResults]
    · simp [search, vecList, hb]
  refine ⟨h1, ?_⟩
  rw [h1]
  exact lexOnlyResults_source

theorem filterMap_bm25_strip {docs : List RDict} :
    ∀ {L : List (ℕ × ℚ)},
      ((L.filterMap (fun p => (docs.get? p.1).map fun d => bm25Entry d p.1 p.2)).map
        stripFused) =
      L.filterMap (fun p => (docs.get? p.1).map fun d => bm25Entry d p.1 p.2) := by
  intro L
  induction L with
  | nil => rfl
  | cons p t ih =>
    rw [List.filterMap_cons]
    cases hd : docs.get? p.1 with
    | none => rw [Option.map_none']; exact ih
    | some d => rw [Option.map_some', List.map_cons, ih]; rfl

/-- Claim C7 (short-circuit equivalence, amended): when one retrieval source
yields nothing inside `search`, the short-circuit path returns — up to the
`fused_score` annotation that only fusion adds, and provided the derived ids
are distinct, as corpus ids are — the same entries in the same order as
running `_reciprocal_rank_fusion` with the empty list for the missing source
and truncating to `top_k`. -/
theorem search_short_circuit_equiv (gs : GetScores) (vec : VecSearch) (s : HState)
    (q : String) (n : ℕ) :
    (bm25_search gs s q (min (n * 3) 50) = [] →
      (vecIds 0 (vecList (vec q (min (n * 3) 50)))).Nodup →
      (search gs vec s q n).map stripFused =
        ((reciprocal_rank_fusion s.documents (vecList (vec q (min (n * 3) 50))) []
          rrfK).take n).map stripFused) ∧
    (vecList (vec q (min (n * 3) 50)) = [] →
      (∀ p ∈ bm25_search gs s q (min (n * 3) 50), p.1 < s.documents.length) →
      ((lexIds s.documents (bm25_search gs s q (min (n * 3) 50))).reduceOption).Nodup →
      (search gs vec s q n).map stripFused =
        ((reciprocal_rank_fusion s.documents [] (bm25_search gs s q (min (n * 3) 50))
          rrfK).take n).map stripFused) := by
  constructor
  · intro hb hnd
    have hsearch : search gs vec s q n = (vecList (vec q (min (n * 3) 50))).take n := by
      simp [search, hb]
    rw [hsearch]
    simp only [List.map_take]
    rw [reciprocal_rank_fusion, rrfPairs_vector_only _ _ _ hnd, List.map_map, vecOut_strip]
  · intro hv hin hnd
    by_cases hb : bm25_search gs s q (min (n * 3) 50) = []
    · have hsearch : search gs vec s q n = (vecList (vec q (min (n * 3) 50))).take n := by
        simp [search, hb]
      rw [hsearch, hv, hb]
      rfl
    · have hsearch : search gs vec s q n =
          lexOnlyResults s.documents (bm25_search gs s q (min (n * 3) 50)) n := by
        simp [search, hb, hv]
      rw [hsearch, lexOnlyResults_take hin]
      simp only [List.map_take]
      rw [filterMap_bm25_strip, reciprocal_rank_fusion, rrfPairs_lexical_only _ _ _ hnd,
        List.map_map, lexOut_strip]

/-- Claim C9 (empty-query handling, amended): on the empty query the lexical
side contributes nothing (its tokenization is empty) and `search` returns the
vector collaborator's results truncated to `top_k` — `[]` exactly when the
vector source yields nothing or raises; no input makes it raise. -/
theorem search_empty_query (gs : GetScores) (vec : VecSearch) (s : HState) :
    search gs vec s "" 5 = (vecList (vec "" 15)).take 5 ∧
    (∀ m : ℕ, bm25_search gs s "" m = []) ∧
    tokenize "" = [] := by
  have htok : tokenize "" = [] := rfl
  have hbm : ∀ m : ℕ, bm25_search gs s "" m = [] := by
    intro m
    cases hidx : s.bm25_index with
    | none => rw [bm25_search, hidx]
    | some corp =>
      rw [bm25_search, hidx]
      dsimp only
      by_cases hdoc : s.documents = []
      · rw [if_pos hdoc]
      · rw [if_neg hdoc, htok, if_pos rfl]
  refine ⟨?_, hbm, htok⟩
  simp [search, hbm]

/-- Claim C8 (rebuild semantics, amended): `build_index` with a non-empty
corpus replaces the whole state, so the lexical results depend only on the
corpus; `build_index([])` is a warn-and-return no-op that preserves the prior
state; rebuilding twice with any fixed corpus equals rebuilding once. -/
theorem build_index_replacement :
    (∀ (C : List RDict) (s s' : HState), C ≠ [] → build_index C s = build_index C s') ∧
    (∀ s : HState, build_index [] s = s) ∧
    (∀ (C : List RDict) (s : HState), build_index C (build_index C s) = build_index C s) ∧
    (∀ (gs : GetScores) (C : List RDict) (s s' : HState) (q : String) (n : ℕ), C ≠ [] →
      bm25_search gs (build_index C s) q n = bm25_search gs (build_index C s') q n) := by
  have h1 : ∀ (C : List RDict) (s s' : HState), C ≠ [] →
      build_index C s = build_index C s' := by
    intro C s s' hC
    rw [build_index, build_index, if_neg hC, if_neg hC]
  refine ⟨h1, ?_, ?_, ?_⟩
  · intro s
    rw [build_index, if_pos rfl]
  · intro C s
    by_cases hC : C = []
    · subst hC
      rw [build_index, if_pos rfl]
    · exact h1 C _ s hC
  · intro gs C s s' q n hC
    rw [h1 C s s' hC]

end HybridSearch

section HSScratch

open HybridSearch

set_option maxRecDepth 4000 in
example :
    reciprocal_rank_fusion [docA, docB] [vecA, vecC] [(1, 3), (0, 2)] 60 =
      [ { vecA with fused_score := some (1/61 + 1/62) },
        { id := some "b", content := some "diabetes treatment", metadata := some [],
          score := some 3, source := some "bm25", fused_score := some (1/61) },
        { vecC with fused_score := some (1/62) } ] := by
  norm_num [reciprocal_rank_fusion, rrfPairs, rrfState, vecLoop, lexLoop, addScore, setMap,
    lookupM, vecId, docId, contribution, bm25Entry, stableSortDesc, insertDesc, docA, docB,
    vecA, vecC]
  rfl

end HSScratch

section C5Scratch

set_option maxRecDepth 8000

example : QueryProcessor.rule_based_decomposition "What is asthma; " = ["What is asthma?"] := by
  decide

example : QueryProcessor.decompose_query false none "What is asthma; " = ["What is asthma?"] := by
  decide

example : QueryProcessor.rule_based_decomposition "hello" = [] := by decide

example : QueryProcessor.decompose_query false none "hello" = ["hello"] := by decide

example : QueryProcessor.rule_based_decomposition "what is diabetes and hypertension"
    = ["What is diabetes?", "What is hypertension?"] := by decide

example : QueryProcessor.rule_based_decomposition "What is flu? And how to treat it?"
    = ["What is flu?", "how to treat it?"] := by decide

end C5Scratch

section C4Scratch

set_option maxRecDepth 8000

example : QueryProcessor.classify_query_type "I have chest pain, what medicine helps?"
    = "emergency" := by decide

example : QueryProcessor.classify_query_type "what medicine helps?" = "treatment" := by decide

example : QueryProcessor.classify_query_type "hello there" = "general" := by decide

end C4Scratch

section C3Scratch

set_option maxRecDepth 4000

example : QueryProcessor.is_complex_query "What is asthma?" = false := by decide
example : QueryProcessor.is_complex_query
    "What is asthma and how do I treat it and also what about prevention?" = true := by decide
example : QueryProcessor.is_complex_query "take this plus take both pills" = true := by decide
example : QueryProcessor.specFourIndicatorCount "take this plus take both pills" = 1 := by decide

end C3Scratch

section ClaimEvidence

open HybridSearch

/-- Counterexample to claim C3 as stated: a query containing the markers
`" plus "` and `" both "` (and nothing else) satisfies only 1 of the claim's
four indicators — the conjunction-marker indicator "counted as one" — yet the
source counts the two markers separately and classifies the query complex. -/
theorem is_complex_four_indicator_cex :
    QueryProcessor.is_complex_query "take this plus take both pills" = true ∧
    QueryProcessor.specFourIndicatorCount "take this plus take both pills" = 1 ∧
    ¬ 2 ≤ QueryProcessor.specFourIndicatorCount "take this plus take both pills" := by
  refine ⟨by decide, by decide, by decide⟩

/-- Witness for the amended claim C3 at a concrete query. -/
theorem is_complex_threshold_w :
    QueryProcessor.is_complex_query "What is asthma?" = false :=
  (QueryProcessor.is_complex_threshold "What is asthma?").2.1

/-- Witness for claim C4: a concrete emergency keyword short-circuits. -/
theorem classify_priority_w :
    QueryProcessor.hasEmergency (QueryProcessor.lowered "call 911 now") = true ∧
    QueryProcessor.classify_query_type "call 911 now" = "emergency" :=
  ⟨by decide, (QueryProcessor.classify_priority "call 911 now").2.1 (by decide)⟩

/-- Counterexample to claim C5 as stated: on `"What is asthma; "` the
semicolon separator splits into two raw parts of which only ONE is non-empty,
yet the rule tier still returns that single cleaned part — so with no remote
fallback configured, `decompose_query` does not return `[original_query]`. -/
theorem decompose_query_single_part_cex :
    QueryProcessor.firstSplit "What is asthma; ".toList =
      some ["What is asthma".toList, []] ∧
    ((["What is asthma".toList, ([] : List Char)]).filter (· ≠ [])).length = 1 ∧
    QueryProcessor.decompose_query false none "What is asthma; " = ["What is asthma?"] ∧
    QueryProcessor.decompose_query false none "What is asthma; " ≠ ["What is asthma; "] := by
  refine ⟨by decide, by decide, by decide, by decide⟩

/-- Witness for the amended claim C5 at a concrete query with no separator
match, no template match, and no remote tier. -/
theorem decompose_query_contract_w :
    QueryProcessor.rule_based_decomposition "hello" = [] ∧
    QueryProcessor.decompose_query false none "hello" = ["hello"] :=
  ⟨by decide,
    (QueryProcessor.decompose_query_contract "hello" false none).2.1 (by decide) (Or.inl rfl)⟩

/-- Witness for claim C1 at the spec's end-to-end scenario shape: id `"a"` is
rank 0 in the vector list and rank 1 in the lexical list. -/
theorem rrf_fusion_additivity_w :
    ((vecIds 0 [vecA, vecC]).get? 0 = some "a") ∧
    ((vecIds 0 [vecA, vecC]).count "a" = 1) ∧
    ((lexIds [docA, docB] [(1, 3), (0, 2)]).get? 1 = some (some "a")) ∧
    ((lexIds [docA, docB] [(1, 3), (0, 2)]).count (some "a") = 1) ∧
    ((rrfPairs [docA, docB] [vecA, vecC] [(1, 3), (0, 2)] 60).map Prod.fst).Nodup :=
  ⟨by decide, by decide, by decide, by decide,
    (rrf_fusion_additivity [docA, docB] [vecA, vecC] [(1, 3), (0, 2)] 60 "a" 0 1
      (by decide) (by decide) (by decide) (by decide)).2.2.2.1⟩

/-- Witness for claim C2: determinism instantiated at equal concrete inputs. -/
theorem rrf_order_determinism_w :
    reciprocal_rank_fusion [docA] [vecA] [(0, 1)] 60 =
      reciprocal_rank_fusion [docA] [vecA] [(0, 1)] 60 :=
  (rrf_order_determinism [docA] [vecA] [(0, 1)] 60).2.2.2.2 [docA] [vecA] [(0, 1)] 60
    rfl rfl rfl rfl

/-- Witness for claim C6: with a one-chunk corpus and a raising vector
collaborator, `search` returns exactly the formatted BM25 hit. -/
theorem search_vector_error_degrades_w :
    search gsW (fun _ _ => Except.error "down") (build_index [docA] initState)
      "diabetes symptoms" 5 = [bm25Entry docA 0 1] ∧
    (bm25Entry docA 0 1).source = some "bm25" :=
  ⟨((search_vector_error_degrades gsW (build_index [docA] initState)
      "diabetes symptoms" 5 "down").1).trans rfl, rfl⟩

/-- Counterexample to claim C7 as stated: the short-circuit paths do NOT
return the same entries as one-sided fusion — fusion adds a `fused_score` key
the verbatim path lacks, and with duplicate vector ids fusion merges entries
the verbatim path returns separately (so even the id sequences differ). -/
theorem search_short_circuit_cex :
    search gs0 (fun _ _ => Except.ok [vecA]) initState "q" 5 = [vecA] ∧
    reciprocal_rank_fusion [] [vecA] [] 60 =
      [{ vecA with fused_score := some (contribution 60 0) }] ∧
    [vecA] ≠ [{ vecA with fused_score := some (contribution 60 0) }] ∧
    search gs0 (fun _ _ => Except.ok [vecA, vecA2]) initState "q" 5 = [vecA, vecA2] ∧
    reciprocal_rank_fusion [] [vecA, vecA2] [] 60 =
      [{ vecA2 with fused_score := some (contribution 60 0 + contribution 60 1) }] ∧
    [vecA, vecA2].map stripFused ≠
      [{ vecA2 with
          fused_score := some (contribution 60 0 + contribution 60 1) }].map stripFused := by
  refine ⟨rfl, rfl, ?_, rfl, rfl, ?_⟩
  · intro h
    injection h with h1 _
    have h2 := congrArg RDict.fused_score h1
    exact Option.noConfusion h2
  · intro h
    have h2 := congrArg List.length h
    simp at h2

/-- Witness for the amended claim C7: the vector-only short circuit agrees
with one-sided fusion modulo the fused-score annotation. -/
theorem search_short_circuit_equiv_w :
    bm25_search gs0 initState "q" (min (5 * 3) 50) = [] ∧
    (vecIds 0 (vecList ((fun _ _ => Except.ok [vecA] : VecSearch) "q" (min (5 * 3) 50)))).Nodup ∧
    (search gs0 (fun _ _ => Except.ok [vecA]) initState "q" 5).map stripFused =
      ((reciprocal_rank_fusion initState.documents
        (vecList ((fun _ _ => Except.ok [vecA] : VecSearch) "q" (min (5 * 3) 50))) []
        rrfK).take 5).map stripFused :=
  ⟨rfl, by decide,
    (search_short_circuit_equiv gs0 (fun _ _ => Except.ok [vecA]) initState "q" 5).1
      rfl (by decide)⟩

/-- Counterexample to claim C8 as stated: `build_index([])` leaves the prior
index in place, so after it the lexical results still depend on previously
indexed documents — two prior states give different results for the same
(empty) corpus argument. -/
theorem build_index_empty_cex :
    bm25_search gsW (build_index [] (build_index [docA] initState))
      "diabetes symptoms" 5 = [(0, 1)] ∧
    bm25_search gsW (build_index [] initState) "diabetes symptoms" 5 = [] ∧
    ([((0 : ℕ), (1 : ℚ))] : List (ℕ × ℚ)) ≠ [] := by
  refine ⟨rfl, rfl, by simp⟩

/-- Witness for the amended claim C8: a non-empty rebuild is insensitive to
the prior state. -/
theorem build_index_replacement_w :
    build_index [docA] initState = build_index [docA] (build_index [docB] initState) :=
  build_index_replacement.1 [docA] initState (build_index [docB] initState)
    (List.cons_ne_nil _ _)

/-- Counterexample to claim C9 as stated: `search("", top_k=5)` is NOT `[]`
whenever the vector collaborator returns matches for the empty query — the
code passes the empty query to the vector source unguarded and returns its
results. -/
theorem search_empty_query_cex :
    search gs0 (fun _ _ => Except.ok [vecA]) initState "" 5 = [vecA] ∧
    ([vecA] : List RDict) ≠ [] := by
  refine ⟨rfl, by simp⟩

end ClaimEvidence
